import Mathlib

/-!
Verification of the SONATA-AI core (quantizer, grand-staff splitter, the
Notation-Text (ABC) and Score-XML encoders, the audio-import note builder and
the hand-rolled PDF assembler).

Modelling conventions:
* JavaScript numbers are modelled as exact rationals (`ℚ`).  All numeric values
  that the verified code manipulates are small dyadic rationals, on which JS
  double arithmetic is exact, so `ℚ` is a faithful model.
* `Math.round` rounds half toward positive infinity, i.e. `⌊x + 1/2⌋`.
* JS strings are modelled as Lean `String`s (sequences of code points; every
  string the code builds is ASCII, where UTF-16 code units and code points
  coincide).  `toLowerCase` is modelled by `Char.toLower` (ASCII lowering),
  which agrees with JS on the ASCII strings relevant here.
* JS `Array.prototype.sort` is a stable sort; it is modelled by
  `List.insertionSort`, which is stable for the same total preorder.
* JS `Map` (insertion-ordered keyed map) is modelled by an association list
  with in-place update (`mapSet`) and lookup (`mapGet`).
-/

namespace Sonata

/-- JS `Math.round`: rounds half toward positive infinity. -/
def jsRound (q : ℚ) : ℤ := ⌊q + 1/2⌋

/-- JS `Math.ceil` on a rational value. -/
def jsCeil (q : ℚ) : ℤ := ⌈q⌉

/-! ## Data model (`types.ts`)

`Note` keeps the four required numeric fields.  The optional decorative fields
(`fingering`, `dynamic`, `slurStart`, `slurEnd`) are only written by the
stochastic generator and never read by the quantizer, splitter or encoders, so
they are omitted from the model. -/

structure Note where
  pitch : ℤ
  time : ℚ
  duration : ℚ
  velocity : ℚ
  deriving Repr, DecidableEq

structure Track where
  instrument : String
  volume : ℚ
  notes : List Note
  deriving Repr, DecidableEq

structure Composition where
  title : String
  subtitle : Option String
  composer : String
  style : String
  tempo : ℤ
  tracks : List Track
  abcNotation : String
  deriving Repr, DecidableEq

/-! ## `geminiService.ts`: stochastic engine core constants and helpers -/

/-- `PITCH_SPLIT = 60` (middle C). -/
def PITCH_SPLIT : ℤ := 60

/-- `TIME_GRID = 0.25` (one sixteenth note, in beats). -/
def TIME_GRID : ℚ := 1/4

/-- `clamp(value, min, max) = Math.min(max, Math.max(min, value))`. -/
def clamp (value lo hi : ℚ) : ℚ := min hi (max lo value)

/-- `quantize(value, grid = TIME_GRID) = Math.round(value / grid) * grid`. -/
def quantize (value : ℚ) (grid : ℚ := TIME_GRID) : ℚ :=
  (jsRound (value / grid) : ℚ) * grid

/-- One step of `hashString`'s loop:
`hash = ((hash << 5) - hash) + charCode; hash |= 0`.
`<<` and `|= 0` wrap to a signed 32-bit integer; the intermediate JS double
arithmetic is exact at these magnitudes. -/
def toSigned32 (n : ℤ) : ℤ :=
  let r := n % 4294967296
  if r < 2147483648 then r else r - 4294967296

def hashStep (hash : ℤ) (c : ℕ) : ℤ :=
  toSigned32 (toSigned32 (hash * 32) - hash + c)

/-- `hashString`: fold the step over the character codes, then `Math.abs`. -/
def hashString (value : String) : ℕ :=
  (value.data.foldl (fun h c => hashStep h c.toNat) 0).natAbs

/-- Substring test used to model JS `String.prototype.includes`. -/
def charsHaveSub : List Char → List Char → Bool
  | _, [] => true
  | [], _ :: _ => false
  | c :: cs, needle =>
      (needle.isPrefixOf (c :: cs)) || charsHaveSub cs needle

def strIncludes (s sub : String) : Bool := charsHaveSub s.data sub.data

/-- The BPM range that `tempoFromStyle` selects from the lowercased style key. -/
def tempoRange (key : String) : ℤ × ℤ :=
  if strIncludes key "bach" || strIncludes key "baroque" then (72, 96)
  else if strIncludes key "chopin" || strIncludes key "romantic" then (60, 84)
  else if strIncludes key "jazz" then (90, 120)
  else (84, 120)

/-- `tempoFromStyle(style, title?)`. -/
def tempoFromStyle (style : String) (title : Option String) : ℤ :=
  let key := style.map Char.toLower
  let seed := key ++ "|" ++ title.getD ""
  let h := hashString seed
  let range := tempoRange key
  range.1 + (h : ℤ) % (range.2 - range.1 + 1)

/-- `normalizeNote`: quantize time (floored at 0) and duration (floored at one
grid unit), clamp velocity to `[0.05, 1]`; every other field is kept. -/
def normalizeNote (note : Note) : Note :=
  let time := max 0 (quantize note.time)
  let duration := max TIME_GRID (quantize note.duration)
  let velocity := clamp note.velocity (1/20) 1
  { note with time := time, duration := duration, velocity := velocity }

/-- The total preorder decided by the comparator
`(a, b) => (a.time - b.time) || (a.pitch - b.pitch)`. -/
def noteLe (a b : Note) : Prop :=
  a.time < b.time ∨ (a.time = b.time ∧ a.pitch ≤ b.pitch)

instance : DecidableRel noteLe := fun a b => by
  unfold noteLe; exact inferInstance

instance : IsTotal Note noteLe := by
  constructor
  intro a b
  rcases lt_trichotomy a.time b.time with h | h | h
  · exact Or.inl (Or.inl h)
  · rcases le_total a.pitch b.pitch with hp | hp
    · exact Or.inl (Or.inr ⟨h, hp⟩)
    · exact Or.inr (Or.inr ⟨h.symm, hp⟩)
  · exact Or.inr (Or.inl h)

instance : IsTrans Note noteLe := by
  constructor
  intro a b c hab hbc
  rcases hab with h1 | ⟨e1, p1⟩
  · rcases hbc with h2 | ⟨e2, _⟩
    · exact Or.inl (h1.trans h2)
    · exact Or.inl (e2 ▸ h1)
  · rcases hbc with h2 | ⟨e2, p2⟩
    · exact Or.inl (e1 ▸ h2)
    · exact Or.inr ⟨e1.trans e2, p1.trans p2⟩

/-- `sortNotes`: stable sort by `(time, pitch)`. -/
def sortNotes (notes : List Note) : List Note := notes.insertionSort noteLe

/-- The result record of `splitToGrandStaff` in `geminiService.ts`. -/
structure GrandStaff where
  rh : Track
  lh : Track
  deriving Repr, DecidableEq

/-- `splitToGrandStaff` (geminiService): merge all notes, normalize each, push
to the lower voice when `pitch < PITCH_SPLIT` and to the upper voice otherwise
(the single pass over `allNotes` keeps order, so the two pushed lists are the
two order-preserving filters), then sort each voice by `(time, pitch)`.
`tracks[0]?.instrument || 'Piano'` falls back to `'Piano'` when there is no
first track or its instrument label is the empty string. -/
def splitToGrandStaff (tracks : List Track) : GrandStaff :=
  let allNotes := tracks.flatMap (fun t => t.notes)
  let instrument :=
    match tracks.head? with
    | some t => if t.instrument = "" then "Piano" else t.instrument
    | none => "Piano"
  let normalized := allNotes.map normalizeNote
  let lhNotes := normalized.filter (fun n => n.pitch < PITCH_SPLIT)
  let rhNotes := normalized.filter (fun n => ¬ n.pitch < PITCH_SPLIT)
  { rh := { instrument := instrument, volume := 4/5, notes := sortNotes rhNotes }
    lh := { instrument := instrument, volume := 4/5, notes := sortNotes lhNotes } }

/-- `normalizeComposition`: empty track list stays empty; more than two tracks
with non-uniform instrument labels are returned unchanged; otherwise the track
list is replaced by the two grand-staff voices. -/
def normalizeComposition (composition : Composition) : Composition :=
  match composition.tracks with
  | [] => { composition with tracks := [] }
  | t0 :: _ =>
      let tracks := composition.tracks
      let sameInstrument := tracks.all (fun t => t.instrument = t0.instrument)
      if tracks.length > 2 ∧ ¬ sameInstrument then composition
      else
        let gs := splitToGrandStaff tracks
        { composition with tracks := [gs.rh, gs.lh] }

/-! ## The shared measure-filling walk

Both encoders group the voice's notes by quantized onset tick into an
insertion-ordered keyed map, then fill each measure with a cursor walk:
a nonempty group at the cursor is emitted as one simultaneity whose length is
the longest member and the cursor advances by that length; otherwise a rest
spans the gap to the next onset inside the measure (or the measure end).
The emitted units are modelled as `Token`s; each encoder's `renderMeasure`
string is the concatenation of its token texts. -/

structure TickNote where
  pitch : ℤ
  timeTicks : ℤ
  durationTicks : ℤ
  deriving Repr, DecidableEq

/-- `byTime.get(t) || []` on the association-list model of a JS `Map`. -/
def mapGet (m : List (ℤ × List TickNote)) (k : ℤ) : List TickNote :=
  (m.lookup k).getD []

/-- `byTime.set(t, list)`: replace in place, else append (insertion order). -/
def mapSet : List (ℤ × List TickNote) → ℤ → List TickNote → List (ℤ × List TickNote)
  | [], k, v => [(k, v)]
  | (k', v') :: rest, k, v =>
      if k' = k then (k', v) :: rest else (k', v') :: mapSet rest k v

structure TimeMap where
  byTime : List (ℤ × List TickNote)
  allTimes : List ℤ
  deriving Repr, DecidableEq

/-- `Math.max(...list)` for the nonempty lists it is applied to. -/
def maxOfList (l : List ℤ) : ℤ :=
  match l with
  | [] => 0
  | x :: xs => xs.foldl max x

/-- The common shape of `buildTimeMap` (ABC) and `buildMeasureMap` (XML):
push each note, converted to ticks, onto the group at its onset key, then sort
the keys ascending (`[...byTime.keys()].sort((a, b) => a - b)`). -/
def mapOfNotes (toTime toDur : ℚ → ℤ) (notes : List Note) : TimeMap :=
  let byTime := notes.foldl (fun acc n =>
    let timeTicks := toTime n.time
    let durationTicks := toDur n.duration
    mapSet acc timeTicks
      (mapGet acc timeTicks ++ [⟨n.pitch, timeTicks, durationTicks⟩])) []
  { byTime := byTime
    allTimes := (byTime.map Prod.fst).insertionSort (· ≤ ·) }

/-- One emitted unit of `renderMeasure`: a simultaneity (single note or chord)
or a rest, with its start tick and length in ticks. -/
inductive Token where
  | chordTok (start : ℤ) (pitches : List ℤ) (dur : ℤ)
  | restTok (start : ℤ) (dur : ℤ)
  deriving Repr, DecidableEq

def Token.start : Token → ℤ
  | .chordTok s _ _ => s
  | .restTok s _ => s

def Token.dur : Token → ℤ
  | .chordTok _ _ d => d
  | .restTok _ d => d

def Token.pitches : Token → List ℤ
  | .chordTok _ ps _ => ps
  | .restTok _ _ => []

def Token.isRest : Token → Bool
  | .chordTok _ _ _ => false
  | .restTok _ _ => true

/-- The `while (cursor < measureEnd)` loop of both `renderMeasure`s.  The
`fuel` argument makes the loop a total function; on the maps the encoders
build every advance is at least one tick, so a fuel of `ticksPerMeasure`
suffices (`fillMeasureGo_fuel` below). -/
def fillMeasureGo (byTime : List (ℤ × List TickNote)) (allTimes : List ℤ)
    (measureEnd : ℤ) : ℕ → ℤ → List Token
  | 0, _ => []
  | fuel + 1, cursor =>
    if cursor < measureEnd then
      let notesAtTime := mapGet byTime cursor
      if notesAtTime ≠ [] then
        let durationTicks := maxOfList (notesAtTime.map TickNote.durationTicks)
        Token.chordTok cursor (notesAtTime.map TickNote.pitch) durationTicks ::
          fillMeasureGo byTime allTimes measureEnd fuel (cursor + durationTicks)
      else
        let nextTime := allTimes.find? (fun t => decide (cursor < t ∧ t < measureEnd))
        let gap := nextTime.getD measureEnd - cursor
        Token.restTok cursor gap ::
          fillMeasureGo byTime allTimes measureEnd fuel (cursor + gap)
    else []

def fillMeasure (tpm : ℤ) (tm : TimeMap) (measureIndex : ℤ) : List Token :=
  fillMeasureGo tm.byTime tm.allTimes ((measureIndex + 1) * tpm) tpm.toNat
    (measureIndex * tpm)

/-! ## The Notation-Text (ABC) encoder: `syncAbcNotation` -/

namespace Abc

/-- `ticksPerBeat = 1 / TIME_GRID = 4`. -/
def ticksPerBeat : ℤ := 4

def beatsPerMeasure : ℤ := 4

/-- `ticksPerMeasure = beatsPerMeasure * ticksPerBeat = 16`. -/
def ticksPerMeasure : ℤ := 16

def barsPerLine : ℕ := 4

def linesPerPage : ℕ := 8

/-- `minMeasures = linesPerPage * barsPerLine = 32`. -/
def minMeasures : ℤ := 32

/-- `toTicksTime(value) = Math.max(0, Math.round(value / TIME_GRID))`. -/
def toTicksTime (value : ℚ) : ℤ := max 0 (jsRound (value / TIME_GRID))

/-- `toTicksDuration(value) = Math.max(1, Math.round(value / TIME_GRID))`. -/
def toTicksDuration (value : ℚ) : ℤ := max 1 (jsRound (value / TIME_GRID))

def buildTimeMap (notes : List Note) : TimeMap :=
  mapOfNotes toTicksTime toTicksDuration notes

/-- `lengthFromTicks`: the ABC length suffix for `eighths = ticks / 2`. -/
def lengthFromTicks (ticks : ℤ) : String :=
  if ticks = 2 then ""
  else if ticks = 1 then "/2"
  else if ticks % 2 = 0 then toString (ticks / 2)
  else toString ticks ++ "/2"

def apostropheMark : Char := Char.ofNat 39

/-- `midiToAbc`: MIDI number to ABC symbol (sharps only), octave marks
anchored at middle C.  The encoders only pass pitches in the MIDI domain
(`0 ≤ midi`), where JS `%` and `Math.floor` division agree with `emod`/`fdiv`. -/
def midiToAbc (midi : ℤ) : String :=
  let noteNames := ["C", "^C", "D", "^D", "E", "F", "^F", "G", "^G", "A", "^A", "B"]
  let octave := midi.fdiv 12 - 1
  let noteName := noteNames.getD (midi % 12).toNat "C"
  let isSharp := noteName.startsWith "^"
  let baseNote := if isSharp then noteName.drop 1 else noteName
  let pre := if isSharp then "^" else ""
  if octave = 4 then pre ++ baseNote
  else if octave = 5 then pre ++ baseNote.map Char.toLower
  else if octave ≥ 6 then
    pre ++ baseNote.map Char.toLower ++ String.mk (List.replicate (octave - 5).toNat apostropheMark)
  else if octave = 3 then pre ++ baseNote ++ ","
  else if octave = 2 then pre ++ baseNote ++ ",,"
  else if octave ≤ 1 then pre ++ baseNote ++ ",,,"
  else pre ++ baseNote

/-- The tokens `renderMeasure` emits for one measure. -/
def measureTokens (tm : TimeMap) (measureIndex : ℤ) : List Token :=
  fillMeasure ticksPerMeasure tm measureIndex

def tokenText : Token → String
  | .chordTok _ pitches dur =>
      let chord := String.join (pitches.map midiToAbc)
      let noteText := if pitches.length > 1 then "[" ++ chord ++ "]" else chord
      noteText ++ lengthFromTicks dur ++ " "
  | .restTok _ gap => "z" ++ lengthFromTicks gap ++ " "

def renderMeasure (tm : TimeMap) (measureIndex : ℤ) : String :=
  String.join ((measureTokens tm measureIndex).map tokenText)

/-- The secondary stable re-sort `(a, b) => a.time - b.time` applied to each
voice at the top of `syncAbcNotation`. -/
def timeLe (a b : Note) : Prop := a.time ≤ b.time

instance : DecidableRel timeLe := fun a b => by
  unfold timeLe; exact inferInstance

instance : IsTotal Note timeLe := ⟨fun a b => le_total a.time b.time⟩

instance : IsTrans Note timeLe :=
  ⟨fun _ _ _ h1 h2 => le_trans (α := ℚ) h1 h2⟩

/-- The two voice note lists `syncAbcNotation` works from. -/
def voices (c : Composition) : List Note × List Note :=
  let gs := splitToGrandStaff c.tracks
  (gs.rh.notes.insertionSort timeLe, gs.lh.notes.insertionSort timeLe)

def globalMaxTick (rhNotes lhNotes : List Note) : ℤ :=
  max (max
    (if rhNotes ≠ [] then
      maxOfList (rhNotes.map fun n => toTicksTime n.time + toTicksDuration n.duration)
     else 0)
    (if lhNotes ≠ [] then
      maxOfList (lhNotes.map fun n => toTicksTime n.time + toTicksDuration n.duration)
     else 0))
    ticksPerMeasure

/-- `totalMeasures = Math.max(minMeasures, Math.ceil(globalMaxTick / ticksPerMeasure))`. -/
def totalMeasuresOf (rhNotes lhNotes : List Note) : ℤ :=
  max minMeasures (jsCeil ((globalMaxTick rhNotes lhNotes : ℚ) / (ticksPerMeasure : ℚ)))

def totalMeasures (c : Composition) : ℤ :=
  totalMeasuresOf (voices c).1 (voices c).2

def header (c : Composition) : String :=
  let gs := splitToGrandStaff c.tracks
  let instrumentName := if gs.rh.instrument = "" then "Piano" else gs.rh.instrument
  "X:1\nT:" ++ c.title ++ "\n"
    ++ (match c.subtitle with | some s => "T:" ++ s ++ "\n" | none => "")
    ++ "C:" ++ c.composer ++ "\n"
    ++ "%%titlefont Playfair-Display 48\n%%subtitlefont Playfair-Display 24\n%%composerfont Inter 12\n%%staffsep 45\n%%syssep 45\n%%staffnames 1\n%%score \x7bRH | LH\x7d\n"
    ++ "L:1/8\nQ:1/4=" ++ toString c.tempo ++ "\nM:4/4\nK:Am\n"
    ++ "V:RH clef=treble name=\"" ++ instrumentName ++ "\"\nV:LH clef=bass\n"

/-- The measure/line loop building `body`. -/
def body (rhTm lhTm : TimeMap) (totalMeasures : ℤ) : String :=
  (List.range totalMeasures.toNat).foldl (fun body m =>
    let body := if m % barsPerLine = 0 then body ++ "[V:RH clef=treble] " else body
    let body := body ++ renderMeasure rhTm (m : ℤ) ++ "| "
    let isLineEnd := (m + 1) % barsPerLine = 0 ∨ m = totalMeasures.toNat - 1
    if isLineEnd then
      let lineStart := m - (barsPerLine - 1)
      let lineEnd := m + 1
      let body := body ++ "\n" ++ "[V:LH clef=bass] "
      let body := (List.range' lineStart (lineEnd - lineStart)).foldl
        (fun b lm => b ++ renderMeasure lhTm (lm : ℤ) ++ "| ") body
      let body := body ++ "\n"
      let lineIndex := m / barsPerLine
      let body := if lineIndex = 0 then body ++ "M:none\n" else body
      if (lineIndex + 1) % linesPerPage = 0 ∧ m < totalMeasures.toNat - 1 then
        body ++ "%%newpage\n"
      else body
    else body) ""

end Abc

/-- `syncAbcNotation`: regenerate the ABC text from the composition data. -/
def syncAbcNotation (c : Composition) : String :=
  let (rhNotes, lhNotes) := Abc.voices c
  let rhTm := Abc.buildTimeMap rhNotes
  let lhTm := Abc.buildTimeMap lhNotes
  Abc.header c ++ Abc.body rhTm lhTm (Abc.totalMeasuresOf rhNotes lhNotes)

/-! ## The Score-XML encoder: `musicXmlService.ts` -/

namespace Xml

def DIVISIONS : ℤ := 8

def BEATS_PER_MEASURE : ℤ := 4

/-- `TICKS_PER_MEASURE = DIVISIONS * BEATS_PER_MEASURE = 32`. -/
def TICKS_PER_MEASURE : ℤ := 32

/-- The local `clamp` of `musicXmlService.ts`, on the integer tick values it
is applied to. -/
def clampZ (value lo hi : ℤ) : ℤ := min hi (max lo value)

/-- `midiToPitch`: `(step, alter, octave)`. -/
def midiToPitch (midi : ℤ) : String × ℤ × ℤ :=
  let steps := ["C", "C", "D", "D", "E", "F", "F", "G", "G", "A", "A", "B"]
  let alters : List ℤ := [0, 1, 0, 1, 0, 0, 1, 0, 1, 0, 1, 0]
  let step := steps.getD (midi % 12).toNat "C"
  let alter := alters.getD (midi % 12).toNat 0
  let octave := midi.fdiv 12 - 1
  (step, alter, octave)

/-- The XML service's own `splitToGrandStaff`: partition by the pitch-60
threshold (no normalization) and sort each voice by `(time, pitch)`. -/
def splitToGrandStaff (tracks : List Track) : List Note × List Note :=
  let allNotes := tracks.flatMap (fun t => t.notes)
  let lh := allNotes.filter (fun n => n.pitch < PITCH_SPLIT)
  let rh := allNotes.filter (fun n => ¬ n.pitch < PITCH_SPLIT)
  (rh.insertionSort noteLe, lh.insertionSort noteLe)

/-- `toTicks(beats) = Math.max(0, Math.round(beats * DIVISIONS))`. -/
def toTicks (beats : ℚ) : ℤ := max 0 (jsRound (beats * (DIVISIONS : ℚ)))

/-- `buildMeasureMap`: onset key `toTicks(n.time)`, stored duration
`Math.max(1, toTicks(n.duration))` (the source stores the tick count in the
note's `duration` field; the model stores it in `TickNote.durationTicks`). -/
def buildMeasureMap (notes : List Note) : TimeMap :=
  mapOfNotes toTicks (fun d => max 1 (toTicks d)) notes

/-- The XML measure walk; identical to `fillMeasureGo` except that the rest
length is `clamp(gap, 1, TICKS_PER_MEASURE)`. -/
def fillMeasureXmlGo (byTime : List (ℤ × List TickNote)) (allTimes : List ℤ)
    (measureEnd : ℤ) : ℕ → ℤ → List Token
  | 0, _ => []
  | fuel + 1, cursor =>
    if cursor < measureEnd then
      let notesAtTime := mapGet byTime cursor
      if notesAtTime ≠ [] then
        let durationTicks := maxOfList (notesAtTime.map TickNote.durationTicks)
        Token.chordTok cursor (notesAtTime.map TickNote.pitch) durationTicks ::
          fillMeasureXmlGo byTime allTimes measureEnd fuel (cursor + durationTicks)
      else
        let nextTime := allTimes.find? (fun t => decide (cursor < t ∧ t < measureEnd))
        let gap := nextTime.getD measureEnd - cursor
        let duration := clampZ gap 1 TICKS_PER_MEASURE
        Token.restTok cursor duration ::
          fillMeasureXmlGo byTime allTimes measureEnd fuel (cursor + duration)
    else []

/-- The tokens the XML `renderMeasure` emits for one measure. -/
def measureTokens (tm : TimeMap) (measureIndex : ℤ) : List Token :=
  fillMeasureXmlGo tm.byTime tm.allTimes ((measureIndex + 1) * TICKS_PER_MEASURE)
    TICKS_PER_MEASURE.toNat (measureIndex * TICKS_PER_MEASURE)

def tokenXml (staff : ℤ) : Token → String
  | .chordTok _ pitches dur =>
      String.join (pitches.enum.map (fun ip =>
        let (step, alter, octave) := midiToPitch ip.2
        "<note>" ++ (if ip.1 > 0 then "<chord/>" else "")
          ++ "<pitch><step>" ++ step ++ "</step>"
          ++ (if alter ≠ 0 then "<alter>" ++ toString alter ++ "</alter>" else "")
          ++ "<octave>" ++ toString octave ++ "</octave></pitch><duration>"
          ++ toString dur ++ "</duration><voice>1</voice><staff>"
          ++ toString staff ++ "</staff></note>"))
  | .restTok _ dur =>
      "<note><rest/><duration>" ++ toString dur
        ++ "</duration><voice>1</voice><staff>" ++ toString staff ++ "</staff></note>"

def renderMeasure (tm : TimeMap) (measureIndex staff : ℤ) : String :=
  String.join ((measureTokens tm measureIndex).map (tokenXml staff))

def maxTickOf (rh lh : List Note) : ℤ :=
  max (max
    (if rh ≠ [] then maxOfList (rh.map fun n => toTicks n.time + toTicks n.duration) else 0)
    (if lh ≠ [] then maxOfList (lh.map fun n => toTicks n.time + toTicks n.duration) else 0))
    TICKS_PER_MEASURE

/-- `totalMeasures = Math.max(1, Math.ceil(maxTick / TICKS_PER_MEASURE))`. -/
def totalMeasuresOf (rh lh : List Note) : ℤ :=
  max 1 (jsCeil ((maxTickOf rh lh : ℚ) / (TICKS_PER_MEASURE : ℚ)))

def totalMeasures (c : Composition) : ℤ :=
  totalMeasuresOf (splitToGrandStaff c.tracks).1 (splitToGrandStaff c.tracks).2

def headerXml (c : Composition) : String :=
  let instrumentName :=
    match c.tracks.head? with
    | some t => if t.instrument = "" then "Piano" else t.instrument
    | none => "Piano"
  "<?xml version=\"1.0\" encoding=\"UTF-8\"?>"
    ++ "<!DOCTYPE score-partwise PUBLIC \"-//Recordare//DTD MusicXML 3.1 Partwise//EN\" \"http://www.musicxml.org/dtds/partwise.dtd\">"
    ++ "<score-partwise version=\"3.1\">"
    ++ "<work><work-title>" ++ c.title ++ "</work-title></work>"
    ++ "<identification><creator type=\"composer\">" ++ c.composer ++ "</creator></identification>"
    ++ "<part-list><score-part id=\"P1\"><part-name>" ++ instrumentName ++ "</part-name></score-part></part-list>"
    ++ "<part id=\"P1\">"

def firstMeasureAttrs (c : Composition) : String :=
  "<attributes><divisions>" ++ toString DIVISIONS
    ++ "</divisions><key><fifths>0</fifths></key><time><beats>4</beats><beat-type>4</beat-type></time><staves>2</staves><clef number=\"1\"><sign>G</sign><line>2</line></clef><clef number=\"2\"><sign>F</sign><line>4</line></clef></attributes>"
    ++ "<direction placement=\"above\"><direction-type><metronome><beat-unit>quarter</beat-unit><per-minute>"
    ++ toString c.tempo ++ "</per-minute></metronome></direction-type></direction>"

end Xml

/-- `generateMusicXml`. -/
def generateMusicXml (c : Composition) : String :=
  let (rh, lh) := Xml.splitToGrandStaff c.tracks
  let rhMap := Xml.buildMeasureMap rh
  let lhMap := Xml.buildMeasureMap lh
  let total := Xml.totalMeasuresOf rh lh
  let measures := (List.range total.toNat).foldl (fun xml m =>
    xml ++ "<measure number=\"" ++ toString (m + 1) ++ "\">"
      ++ (if m = 0 then Xml.firstMeasureAttrs c else "")
      ++ Xml.renderMeasure rhMap (m : ℤ) 1
      ++ Xml.renderMeasure lhMap (m : ℤ) 2
      ++ "</measure>") ""
  Xml.headerXml c ++ measures ++ "</part></score-partwise>"

/-! ## The audio-import note builder: `audioImport.ts` -/

def MIN_NOTE_SECONDS : ℚ := 12/100

/-- One frame of the pitch track: time in seconds and detected MIDI pitch
(`none` models the `null` silence marker). -/
structure Frame where
  time : ℚ
  midi : Option ℤ
  deriving Repr, DecidableEq

/-- The loop state of `buildNotesFromPitchTrack`. -/
structure BuildState where
  notes : List Note
  currentMidi : Option ℤ
  startTime : ℚ
  deriving Repr, DecidableEq

/-- One iteration of the `for` loop: a frame equal to the running pitch is
skipped; otherwise the open segment (if any, and if long enough) is closed
and appended, and a new segment begins at this frame. -/
def buildStep (st : BuildState) (f : Frame) : BuildState :=
  if f.midi = st.currentMidi then st
  else
    let notes :=
      match st.currentMidi with
      | some m =>
          let duration := f.time - st.startTime
          if MIN_NOTE_SECONDS ≤ duration then
            st.notes ++ [{ pitch := m, time := st.startTime, duration := duration, velocity := 4/5 }]
          else st.notes
      | none => st.notes
    { notes := notes, currentMidi := f.midi, startTime := f.time }

/-- `buildNotesFromPitchTrack`: fold the loop over the frames and return the
accumulated notes (the loop never closes the final open segment). -/
def buildNotesFromPitchTrack (pitches : List Frame) : List Note :=
  (pitches.foldl buildStep { notes := [], currentMidi := none, startTime := 0 }).notes

/-! ## The Document Assembler: `makePdfBlobFromJpegs`

The builder appends to a byte buffer (`chunks`, with `byteLength` equal to the
flattened length) and records each object's byte offset at the moment its
`"id 0 obj"` marker is written.  Bytes are modelled as `ℕ` values `< 256`
(`charCodeAt(i) & 0xff` for ASCII writes). -/

namespace Pdf

structure PdfPage where
  bytes : List ℕ
  width : ℕ
  height : ℕ
  deriving Repr, DecidableEq

/-- `writeAscii`'s byte conversion: `text.charCodeAt(i) & 0xff`. -/
def asciiOf (s : String) : List ℕ := s.data.map (fun c => c.toNat % 256)

structure PdfState where
  chunks : List ℕ
  offsets : List (ℕ × ℕ)
  deriving Repr, DecidableEq

def writeBytes (st : PdfState) (bytes : List ℕ) : PdfState :=
  { st with chunks := st.chunks ++ bytes }

def writeAscii (st : PdfState) (text : String) : PdfState :=
  writeBytes st (asciiOf text)

/-- The `"id 0 obj"` marker bytes of object `id`. -/
def objMarker (id : ℕ) : List ℕ := asciiOf (toString id ++ " 0 obj")

/-- `beginObject(id)`: record the current byte length as the object's offset,
then write its marker line. -/
def beginObject (st : PdfState) (id : ℕ) : PdfState :=
  writeAscii { st with offsets := st.offsets ++ [(id, st.chunks.length)] }
    (toString id ++ " 0 obj\n")

def endObject (st : PdfState) : PdfState := writeAscii st "endobj\n"

/-- `widthPt.toFixed(2)` for the point values `px * 72 / 96` occurring here
(denominator dividing 4, hence exactly representable and exactly printed):
two-decimal fixed-point rendering. -/
def toFixed2 (q : ℚ) : String :=
  let h := jsRound (q * 100)
  toString (h / 100) ++ "." ++ (if h % 100 < 10 then "0" ++ toString (h % 100) else toString (h % 100))

/-- The three objects written per page: the page object, its content stream
and its image object. -/
def writePage (pageObjectStart : ℕ) (st : PdfState) (ip : ℕ × PdfPage) : PdfState :=
  let i := ip.1
  let page := ip.2
  let pageObj := pageObjectStart + i * 3
  let contentObj := pageObj + 1
  let imageObj := pageObj + 2
  let widthPt : ℚ := (page.width * 72 : ℚ) / 96
  let heightPt : ℚ := (page.height * 72 : ℚ) / 96
  let content := "q\n" ++ toFixed2 widthPt ++ " 0 0 " ++ toFixed2 heightPt
    ++ " 0 0 cm\n/Im" ++ toString (i + 1) ++ " Do\nQ\n"
  let st := endObject (writeAscii (beginObject st pageObj)
    ("<< /Type /Page /Parent 2 0 R /MediaBox [0 0 " ++ toFixed2 widthPt ++ " "
      ++ toFixed2 heightPt ++ "] /Resources << /XObject << /Im" ++ toString (i + 1)
      ++ " " ++ toString imageObj ++ " 0 R >> >> /Contents " ++ toString contentObj
      ++ " 0 R >>\n"))
  let st := endObject (writeAscii (beginObject st contentObj)
    ("<< /Length " ++ toString content.length ++ " >>\nstream\n" ++ content ++ "endstream\n"))
  let st := beginObject st imageObj
  let st := writeAscii st
    ("<< /Type /XObject /Subtype /Image /Width " ++ toString page.width
      ++ " /Height " ++ toString page.height
      ++ " /ColorSpace /DeviceRGB /BitsPerComponent 8 /Filter /DCTDecode /Length "
      ++ toString page.bytes.length ++ " >>\nstream\n")
  let st := writeBytes st page.bytes
  endObject (writeAscii st "\nendstream\n")

/-- Everything written before the cross-reference table: header, catalog,
pages collection, and the three objects of every page. -/
def pdfBody (pagesData : List PdfPage) : PdfState :=
  let pageObjectStart := 3
  let st := writeAscii { chunks := [], offsets := [] } "%PDF-1.4\n%\xE2\xE3\xCF\xD3\n"
  let st := endObject (writeAscii (beginObject st 1) "<< /Type /Catalog /Pages 2 0 R >>\n")
  let kids := String.intercalate " "
    (pagesData.enum.map (fun ip => toString (pageObjectStart + ip.1 * 3) ++ " 0 R"))
  let st := endObject (writeAscii (beginObject st 2)
    ("<< /Type /Pages /Count " ++ toString pagesData.length ++ " /Kids [" ++ kids ++ "] >>\n"))
  pagesData.enum.foldl (writePage pageObjectStart) st

/-- `offsets[i] || 0` (a missing entry and a recorded 0 both read as 0). -/
def lookupOffset (offsets : List (ℕ × ℕ)) (i : ℕ) : ℕ :=
  (offsets.lookup i).getD 0

/-- `${off}.padStart(10, '0')`. -/
def padStart10 (s : String) : String :=
  String.mk (List.replicate (10 - s.length) (Char.ofNat 48)) ++ s

/-- One cross-reference entry line for a recorded offset. -/
def xrefLine (off : ℕ) : String := padStart10 (toString off) ++ " 00000 n \n"

/-- The cross-reference table lines: the reserved free object-zero entry, then
one line per object id `1 .. totalObjects`, in that (ascending) order. -/
def xrefLines (offsets : List (ℕ × ℕ)) (totalObjects : ℕ) : List String :=
  "0000000000 65535 f \n" ::
    (List.range' 1 totalObjects).map (fun i => xrefLine (lookupOffset offsets i))

/-- The full byte stream of `makePdfBlobFromJpegs` (the concatenation of all
`Blob` chunks), with the recorded offsets. -/
def makePdfStream (pagesData : List PdfPage) : PdfState :=
  let totalObjects := 2 + pagesData.length * 3
  let st := pdfBody pagesData
  let xrefOffset := st.chunks.length
  let st := writeAscii st ("xref\n0 " ++ toString (totalObjects + 1) ++ "\n")
  let st := (xrefLines st.offsets totalObjects).foldl writeAscii st
  writeAscii st
    ("trailer\n<< /Size " ++ toString (totalObjects + 1)
      ++ " /Root 1 0 R >>\nstartxref\n" ++ toString xrefOffset ++ "\n%%EOF")

end Pdf

/-! ## Basic lemmas about the JS-number helpers -/

theorem jsRound_intCast (k : ℤ) : jsRound (k : ℚ) = k := by
  unfold jsRound
  rw [Int.floor_int_add]
  norm_num

theorem quantize_int_mul (k : ℤ) : quantize ((k : ℚ) * TIME_GRID) = (k : ℚ) * TIME_GRID := by
  unfold quantize
  have h : ((k : ℚ) * TIME_GRID) / TIME_GRID = (k : ℚ) := by
    rw [mul_div_assoc, div_self (by norm_num [TIME_GRID]), mul_one]
  rw [h, jsRound_intCast]

theorem quantize_eq_int_mul (x : ℚ) :
    quantize x = (jsRound (x / TIME_GRID) : ℚ) * TIME_GRID := rfl

theorem quantize_idem (x : ℚ) : quantize (quantize x) = quantize x := by
  rw [quantize_eq_int_mul x, quantize_int_mul]

theorem quantize_zero : quantize 0 = 0 := by
  unfold quantize jsRound
  norm_num

theorem time_fix (x : ℚ) :
    max 0 (quantize (max 0 (quantize x))) = max 0 (quantize x) := by
  rcases le_or_lt 0 (quantize x) with h | h
  · rw [max_eq_right h, quantize_idem, max_eq_right h]
  · rw [max_eq_left h.le, quantize_zero, max_self]

theorem duration_fix (x : ℚ) :
    max TIME_GRID (quantize (max TIME_GRID (quantize x))) = max TIME_GRID (quantize x) := by
  rcases le_or_lt TIME_GRID (quantize x) with h | h
  · rw [max_eq_right h, quantize_idem, max_eq_right h]
  · have h1 : max TIME_GRID (quantize x) = TIME_GRID := max_eq_left h.le
    have h2 : quantize TIME_GRID = TIME_GRID := by
      have := quantize_int_mul 1
      simpa using this
    rw [h1, h2, max_self]

theorem clamp_idem (v lo hi : ℚ) (h : lo ≤ hi) :
    clamp (clamp v lo hi) lo hi = clamp v lo hi := by
  unfold clamp
  have h1 : lo ≤ min hi (max lo v) := le_min h (le_max_left lo v)
  rw [max_eq_right h1, min_eq_right (min_le_left hi (max lo v))]

theorem normalizeNote_idem (n : Note) :
    normalizeNote (normalizeNote n) = normalizeNote n := by
  cases n with
  | mk p t d v =>
    simp only [normalizeNote]
    congr 1
    · exact time_fix t
    · exact duration_fix d
    · exact clamp_idem v (1/20) 1 (by norm_num)

theorem normalizeNote_pitch (n : Note) : (normalizeNote n).pitch = n.pitch := rfl

/-! ## Claim C2: the normalization grid -/

/-- The concrete input refuting the 1/16-beat grid reading: a note starting
one sixteenth of a beat into the piece. -/
def c2note : Note := { pitch := 60, time := 1/16, duration := 1, velocity := 7/10 }

/-- The claim's own rounding formula for `time`, read literally with a grid
unit of 1/16 beat (this definition follows the claim's words, for comparison
with the code's `normalizeNote`). -/
def claimedTimeSixteenthBeat (t : ℚ) : ℚ :=
  max 0 ((jsRound (t / (1/16)) : ℚ) * (1/16))

/-- C2 counterexample: the code quantizes `time = 1/16` beat to `0`, while the
claim's 1/16-beat grid formula would keep it at `1/16`. -/
theorem c2_sixteenth_beat_grid_cex :
    (normalizeNote c2note).time = 0 ∧
    claimedTimeSixteenthBeat (1/16) = 1/16 ∧ (0 : ℚ) ≠ 1/16 := by
  refine ⟨?_, ?_, by norm_num⟩
  · show max 0 (quantize ((1:ℚ)/16)) = 0
    have h : quantize ((1:ℚ)/16) = 0 := by
      unfold quantize jsRound TIME_GRID
      norm_num
    rw [h, max_self]
  · unfold claimedTimeSixteenthBeat jsRound
    rw [div_self (by norm_num)]
    norm_num

/-- C2 (amended): normalization rounds `time` and `duration` to the nearest
multiple of the 1/4-beat grid unit `TIME_GRID` (one sixteenth *note*), floors
`duration` at one grid unit and `time` at 0; consequently both are integer
multiples of 1/4 beat (hence also of 1/16 beat). -/
theorem c2_normalization_grid (n : Note) :
    (normalizeNote n).time = max 0 (quantize n.time) ∧
    (normalizeNote n).duration = max TIME_GRID (quantize n.duration) ∧
    (∃ k : ℤ, 0 ≤ k ∧ (normalizeNote n).time = (k : ℚ) * TIME_GRID) ∧
    (∃ m : ℤ, 1 ≤ m ∧ (normalizeNote n).duration = (m : ℚ) * TIME_GRID) ∧
    (∃ k : ℤ, (normalizeNote n).time = (k : ℚ) * (1/16)) ∧
    (∃ m : ℤ, (normalizeNote n).duration = (m : ℚ) * (1/16)) := by
  have htime : (normalizeNote n).time = max 0 (quantize n.time) := rfl
  have hdur : (normalizeNote n).duration = max TIME_GRID (quantize n.duration) := rfl
  have hgrid : (0 : ℚ) < TIME_GRID := by norm_num [TIME_GRID]
  have hT : ∃ k : ℤ, 0 ≤ k ∧ (normalizeNote n).time = (k : ℚ) * TIME_GRID := by
    rcases le_or_lt 0 (quantize n.time) with h | h
    · refine ⟨jsRound (n.time / TIME_GRID), ?_, ?_⟩
      · have h1 : (0 : ℚ) ≤ (jsRound (n.time / TIME_GRID) : ℚ) * TIME_GRID := h
        have h2 : (0 : ℚ) ≤ (jsRound (n.time / TIME_GRID) : ℚ) :=
          nonneg_of_mul_nonneg_left h1 hgrid
        exact_mod_cast h2
      · rw [htime, max_eq_right h]; rfl
    · exact ⟨0, le_refl 0, by rw [htime, max_eq_left h.le]; norm_num⟩
  have hD : ∃ m : ℤ, 1 ≤ m ∧ (normalizeNote n).duration = (m : ℚ) * TIME_GRID := by
    rcases le_or_lt TIME_GRID (quantize n.duration) with h | h
    · refine ⟨jsRound (n.duration / TIME_GRID), ?_, ?_⟩
      · have h1 : TIME_GRID ≤ (jsRound (n.duration / TIME_GRID) : ℚ) * TIME_GRID := h
        have h2 : (1 : ℚ) * TIME_GRID ≤ (jsRound (n.duration / TIME_GRID) : ℚ) * TIME_GRID := by
          rw [one_mul]; exact h1
        have := le_of_mul_le_mul_right h2 hgrid
        exact_mod_cast this
      · rw [hdur, max_eq_right h]; rfl
    · exact ⟨1, le_refl 1, by rw [hdur, max_eq_left h.le]; norm_num [TIME_GRID]⟩
  refine ⟨htime, hdur, hT, hD, ?_, ?_⟩
  · obtain ⟨k, _, hk⟩ := hT
    exact ⟨4 * k, by rw [hk]; push_cast; norm_num [TIME_GRID]; ring⟩
  · obtain ⟨m, _, hm⟩ := hD
    exact ⟨4 * m, by rw [hm]; push_cast; norm_num [TIME_GRID]; ring⟩

/-! ## Lemmas about the grand-staff splitter -/

theorem map_id_of_mem {α : Type} {f : α → α} :
    ∀ {l : List α}, (∀ a ∈ l, f a = a) → l.map f = l
  | [], _ => rfl
  | a :: l, h => by
      simp only [List.map_cons, List.cons.injEq]
      exact ⟨h a (List.mem_cons_self a l), map_id_of_mem fun b hb => h b (List.mem_cons_of_mem a hb)⟩

theorem sortNotes_perm (l : List Note) : (sortNotes l).Perm l :=
  List.perm_insertionSort noteLe l

theorem sortNotes_sorted (l : List Note) : List.Sorted noteLe (sortNotes l) :=
  List.sorted_insertionSort noteLe l

theorem sortNotes_mem {x : Note} {l : List Note} : x ∈ sortNotes l ↔ x ∈ l :=
  List.mem_insertionSort noteLe

/-- Membership in the upper voice: a normalized note with pitch at or above
the split point. -/
theorem mem_split_rh {tracks : List Track} {x : Note}
    (hx : x ∈ (splitToGrandStaff tracks).rh.notes) :
    normalizeNote x = x ∧ PITCH_SPLIT ≤ x.pitch := by
  have hx' := sortNotes_mem.mp hx
  rw [List.mem_filter] at hx'
  obtain ⟨hmem, hp⟩ := hx'
  obtain ⟨y, _, hy⟩ := List.mem_map.mp hmem
  constructor
  · rw [← hy, normalizeNote_idem]
  · have := of_decide_eq_true hp
    exact not_lt.mp this

/-- Membership in the lower voice: a normalized note with pitch below the
split point. -/
theorem mem_split_lh {tracks : List Track} {x : Note}
    (hx : x ∈ (splitToGrandStaff tracks).lh.notes) :
    normalizeNote x = x ∧ x.pitch < PITCH_SPLIT := by
  have hx' := sortNotes_mem.mp hx
  rw [List.mem_filter] at hx'
  obtain ⟨hmem, hp⟩ := hx'
  obtain ⟨y, _, hy⟩ := List.mem_map.mp hmem
  constructor
  · rw [← hy, normalizeNote_idem]
  · exact of_decide_eq_true hp

theorem split_instrument_ne_empty (tracks : List Track) :
    (splitToGrandStaff tracks).rh.instrument ≠ "" := by
  show (match tracks.head? with
    | some t => if t.instrument = "" then "Piano" else t.instrument
    | none => "Piano") ≠ ""
  match tracks.head? with
  | some t =>
      by_cases h : t.instrument = "" <;> simp [h]
  | none => simp

/-- Re-splitting the two voices of a split is a no-op. -/
theorem split_split (tracks : List Track) :
    splitToGrandStaff [(splitToGrandStaff tracks).rh, (splitToGrandStaff tracks).lh]
      = splitToGrandStaff tracks := by
  have hrh := fun x hx => @mem_split_rh tracks x hx
  have hlh := fun x hx => @mem_split_lh tracks x hx
  set gs := splitToGrandStaff tracks with hgs
  show splitToGrandStaff [gs.rh, gs.lh] = gs
  have hflat : ([gs.rh, gs.lh].flatMap fun t => t.notes) = gs.rh.notes ++ gs.lh.notes := by
    simp [List.flatMap]
  have hmap : (gs.rh.notes ++ gs.lh.notes).map normalizeNote = gs.rh.notes ++ gs.lh.notes := by
    apply map_id_of_mem
    intro a ha
    rcases List.mem_append.mp ha with h | h
    · exact (hrh a h).1
    · exact (hlh a h).1
  have hfilter_lh :
      (gs.rh.notes ++ gs.lh.notes).filter (fun n => n.pitch < PITCH_SPLIT) = gs.lh.notes := by
    rw [List.filter_append]
    have h1 : gs.rh.notes.filter (fun n => n.pitch < PITCH_SPLIT) = [] := by
      rw [List.filter_eq_nil_iff]
      intro a ha
      simp only [decide_eq_true_eq]
      exact not_lt.mpr (hrh a ha).2
    have h2 : gs.lh.notes.filter (fun n => n.pitch < PITCH_SPLIT) = gs.lh.notes := by
      rw [List.filter_eq_self]
      intro a ha
      simp only [decide_eq_true_eq]
      exact (hlh a ha).2
    rw [h1, h2, List.nil_append]
  have hfilter_rh :
      (gs.rh.notes ++ gs.lh.notes).filter (fun n => ¬ n.pitch < PITCH_SPLIT) = gs.rh.notes := by
    rw [List.filter_append]
    have h1 : gs.rh.notes.filter (fun n => ¬ n.pitch < PITCH_SPLIT) = gs.rh.notes := by
      rw [List.filter_eq_self]
      intro a ha
      simp only [decide_eq_true_eq]
      exact not_lt.mpr (hrh a ha).2
    have h2 : gs.lh.notes.filter (fun n => ¬ n.pitch < PITCH_SPLIT) = [] := by
      rw [List.filter_eq_nil_iff]
      intro a ha
      simp only [decide_eq_true_eq, not_not]
      exact (hlh a ha).2
    rw [h1, h2, List.append_nil]
  have hsort_rh : sortNotes gs.rh.notes = gs.rh.notes := by
    apply List.Sorted.insertionSort_eq
    rw [hgs]
    exact sortNotes_sorted _
  have hsort_lh : sortNotes gs.lh.notes = gs.lh.notes := by
    apply List.Sorted.insertionSort_eq
    rw [hgs]
    exact sortNotes_sorted _
  have hinst : (if gs.rh.instrument = "" then "Piano" else gs.rh.instrument)
      = gs.rh.instrument := by
    rw [if_neg (split_instrument_ne_empty tracks)]
  show
    (let allNotes := [gs.rh, gs.lh].flatMap fun t => t.notes
     let instrument := match [gs.rh, gs.lh].head? with
       | some t => if t.instrument = "" then "Piano" else t.instrument
       | none => "Piano"
     let normalized := allNotes.map normalizeNote
     let lhNotes := normalized.filter (fun n => n.pitch < PITCH_SPLIT)
     let rhNotes := normalized.filter (fun n => ¬ n.pitch < PITCH_SPLIT)
     GrandStaff.mk
       { instrument := instrument, volume := 4/5, notes := sortNotes rhNotes }
       { instrument := instrument, volume := 4/5, notes := sortNotes lhNotes }) = gs
  simp only [List.head?, hflat, hmap, hfilter_lh, hfilter_rh, hsort_rh, hsort_lh, hinst]
  have hvol_rh : gs.rh.volume = 4/5 := by rw [hgs]; rfl
  have hvol_lh : gs.lh.volume = 4/5 := by rw [hgs]; rfl
  have hinst_lh : gs.lh.instrument = gs.rh.instrument := by rw [hgs]; rfl
  cases hr : gs.rh with
  | mk ri rv rn =>
    cases hl : gs.lh with
    | mk li lv ln =>
      simp only [hr] at hvol_rh hinst_lh
      simp only [hl] at hvol_lh hinst_lh
      rw [show gs = GrandStaff.mk gs.rh gs.lh from rfl, hr, hl]
      simp [hvol_rh, hvol_lh, hinst_lh]

/-! ## Equation lemmas for `normalizeComposition` -/

theorem normalizeComposition_nil {c : Composition} (h : c.tracks = []) :
    normalizeComposition c = { c with tracks := [] } := by
  unfold normalizeComposition
  rw [h]

theorem normalizeComposition_skip {c : Composition} {t0 : Track} {ts : List Track}
    (h : c.tracks = t0 :: ts)
    (hc : c.tracks.length > 2 ∧ ¬ c.tracks.all (fun t => t.instrument = t0.instrument)) :
    normalizeComposition c = c := by
  unfold normalizeComposition
  rw [h]
  simp only
  have hc' : (t0 :: ts).length > 2 ∧
      ¬ ((t0 :: ts).all (fun t => t.instrument = t0.instrument)) := by
    rw [← h]; exact hc
  rw [if_pos hc']

theorem normalizeComposition_split {c : Composition} {t0 : Track} {ts : List Track}
    (h : c.tracks = t0 :: ts)
    (hc : ¬ (c.tracks.length > 2 ∧ ¬ c.tracks.all (fun t => t.instrument = t0.instrument))) :
    normalizeComposition c =
      { c with tracks := [(splitToGrandStaff c.tracks).rh, (splitToGrandStaff c.tracks).lh] } := by
  unfold normalizeComposition
  rw [h]
  simp only
  have hc' : ¬ ((t0 :: ts).length > 2 ∧
      ¬ ((t0 :: ts).all (fun t => t.instrument = t0.instrument))) := by
    rw [← h]; exact hc
  rw [if_neg hc']

theorem normalizeComposition_idem (c : Composition) :
    normalizeComposition (normalizeComposition c) = normalizeComposition c := by
  match h : c.tracks with
  | [] =>
      rw [normalizeComposition_nil h, normalizeComposition_nil rfl]
  | t0 :: ts =>
      by_cases hc : c.tracks.length > 2 ∧ ¬ c.tracks.all (fun t => t.instrument = t0.instrument)
      · rw [normalizeComposition_skip h hc, normalizeComposition_skip h hc]
      · rw [normalizeComposition_split h hc]
        set gs := splitToGrandStaff c.tracks with hgs
        have h2 : ({ c with tracks := [gs.rh, gs.lh] } : Composition).tracks = gs.rh :: [gs.lh] := rfl
        have hc2 : ¬ (({ c with tracks := [gs.rh, gs.lh] } : Composition).tracks.length > 2 ∧
            ¬ ({ c with tracks := [gs.rh, gs.lh] } : Composition).tracks.all
              (fun t => t.instrument = gs.rh.instrument)) := by
          intro hcon
          exact absurd hcon.1 (by simp)
        rw [normalizeComposition_split h2 hc2]
        show ({ c with tracks :=
          [(splitToGrandStaff [gs.rh, gs.lh]).rh, (splitToGrandStaff [gs.rh, gs.lh]).lh] } : Composition) = _
        rw [hgs, split_split]

/-- C5: quantization and grand-staff normalization are idempotent. -/
theorem c5_idempotence :
    (∀ x : ℚ, quantize (quantize x) = quantize x) ∧
    (∀ c : Composition, normalizeComposition (normalizeComposition c) = normalizeComposition c) :=
  ⟨quantize_idem, normalizeComposition_idem⟩

/-! ## Claim C6: splitter partition completeness -/

theorem filter_not_lt_eq {l : List Note} :
    (l.filter fun x => !(fun n : Note => decide (¬ n.pitch < PITCH_SPLIT)) x)
      = l.filter (fun n => n.pitch < PITCH_SPLIT) := by
  apply List.filter_congr
  intro x _
  simp only [decide_not, Bool.not_not]

/-- C6: both splitters partition the merged note collection exactly by the
pitch-60 threshold, losing and duplicating nothing, and sort each voice by
`(time, pitch)`.  The geminiService splitter emits the normalized copy of each
input note (normalization preserves `pitch`); the XML splitter emits the input
notes themselves. -/
theorem c6_split_partition (tracks : List Track) :
    (((splitToGrandStaff tracks).rh.notes ++ (splitToGrandStaff tracks).lh.notes).Perm
        ((tracks.flatMap (fun t => t.notes)).map normalizeNote) ∧
      (∀ n ∈ (splitToGrandStaff tracks).rh.notes, PITCH_SPLIT ≤ n.pitch) ∧
      (∀ n ∈ (splitToGrandStaff tracks).lh.notes, n.pitch < PITCH_SPLIT) ∧
      List.Sorted noteLe (splitToGrandStaff tracks).rh.notes ∧
      List.Sorted noteLe (splitToGrandStaff tracks).lh.notes) ∧
    ((((Xml.splitToGrandStaff tracks).1 ++ (Xml.splitToGrandStaff tracks).2).Perm
        (tracks.flatMap (fun t => t.notes))) ∧
      (∀ n ∈ (Xml.splitToGrandStaff tracks).1, PITCH_SPLIT ≤ n.pitch) ∧
      (∀ n ∈ (Xml.splitToGrandStaff tracks).2, n.pitch < PITCH_SPLIT) ∧
      List.Sorted noteLe (Xml.splitToGrandStaff tracks).1 ∧
      List.Sorted noteLe (Xml.splitToGrandStaff tracks).2) := by
  constructor
  · refine ⟨?_, ?_, ?_, sortNotes_sorted _, sortNotes_sorted _⟩
    · set l := (tracks.flatMap (fun t => t.notes)).map normalizeNote with hl
      have hperm : ((l.filter fun n => ¬ n.pitch < PITCH_SPLIT)
          ++ (l.filter fun n => n.pitch < PITCH_SPLIT)).Perm l := by
        have := List.filter_append_perm (fun n : Note => decide (¬ n.pitch < PITCH_SPLIT)) l
        rwa [filter_not_lt_eq] at this
      exact ((sortNotes_perm _).append (sortNotes_perm _)).trans hperm
    · exact fun n hn => (mem_split_rh hn).2
    · exact fun n hn => (mem_split_lh hn).2
  · refine ⟨?_, ?_, ?_, sortNotes_sorted _, sortNotes_sorted _⟩
    · set l := tracks.flatMap (fun t => t.notes) with hl
      have hperm : ((l.filter fun n => ¬ n.pitch < PITCH_SPLIT)
          ++ (l.filter fun n => n.pitch < PITCH_SPLIT)).Perm l := by
        have := List.filter_append_perm (fun n : Note => decide (¬ n.pitch < PITCH_SPLIT)) l
        rwa [filter_not_lt_eq] at this
      exact ((sortNotes_perm _).append (sortNotes_perm _)).trans hperm
    · intro n hn
      have hn' := sortNotes_mem.mp hn
      rw [List.mem_filter] at hn'
      exact not_lt.mp (of_decide_eq_true hn'.2)
    · intro n hn
      have hn' := sortNotes_mem.mp hn
      rw [List.mem_filter] at hn'
      exact of_decide_eq_true hn'.2

/-! ## Claim C7: when splitting is skipped -/

/-- The uniform-instrument test of `normalizeComposition`
(`tracks.every(t => t.instrument === tracks[0].instrument)`). -/
def sameInstrumentOf (tracks : List Track) : Bool :=
  match tracks with
  | [] => true
  | t0 :: _ => tracks.all (fun t => t.instrument = t0.instrument)

/-- A three-track composition using only two distinct instrument labels. -/
def c7cex : Composition :=
  { title := "T", subtitle := none, composer := "C", style := "s", tempo := 100
    tracks := [{ instrument := "Piano", volume := 1, notes := [] },
               { instrument := "Piano", volume := 1, notes := [] },
               { instrument := "Violin", volume := 1, notes := [] }]
    abcNotation := "" }

/-- C7 counterexample: a composition whose tracks use only two distinct
instrument labels (not "more than two distinct instruments"), yet
`normalizeComposition` skips splitting and keeps all three original tracks
instead of returning the two split voices. -/
theorem c7_distinct_instruments_cex :
    ((c7cex.tracks.map Track.instrument).dedup.length = 2) ∧
    normalizeComposition c7cex = c7cex ∧
    (normalizeComposition c7cex).tracks.length = 3 ∧
    (normalizeComposition c7cex).tracks.length ≠ 2 := by
  have hskip : normalizeComposition c7cex = c7cex := by
    apply @normalizeComposition_skip c7cex { instrument := "Piano", volume := 1, notes := [] }
      [{ instrument := "Piano", volume := 1, notes := [] },
       { instrument := "Violin", volume := 1, notes := [] }] rfl
    refine ⟨by decide, ?_⟩
    decide
  refine ⟨by decide, hskip, ?_, ?_⟩ <;> rw [hskip] <;> decide

/-- C7 (amended): splitting is skipped exactly when there are more than two
*tracks* whose instrument labels are not all equal (two distinct labels over
three tracks already suffice); every other non-empty composition is replaced
by the two split voices. -/
theorem c7_skip_condition (c : Composition) :
    (2 < c.tracks.length ∧ ¬ sameInstrumentOf c.tracks = true → normalizeComposition c = c) ∧
    (c.tracks ≠ [] → ¬ (2 < c.tracks.length ∧ ¬ sameInstrumentOf c.tracks = true) →
      (normalizeComposition c).tracks =
        [(splitToGrandStaff c.tracks).rh, (splitToGrandStaff c.tracks).lh]) ∧
    (c.tracks = [] → (normalizeComposition c).tracks = []) := by
  refine ⟨fun hc => ?_, fun hne hc => ?_, fun hnil => ?_⟩
  · obtain ⟨t0, ts, h⟩ : ∃ t0 ts, c.tracks = t0 :: ts := by
      cases h : c.tracks with
      | nil => rw [h] at hc; exact absurd hc.1 (by decide)
      | cons a l => exact ⟨a, l, rfl⟩
    apply normalizeComposition_skip h
    refine ⟨hc.1, fun hb => hc.2 ?_⟩
    show sameInstrumentOf c.tracks = true
    rw [h]
    show (t0 :: ts).all (fun t => t.instrument = t0.instrument) = true
    rw [h] at hb
    exact hb
  · obtain ⟨t0, ts, h⟩ : ∃ t0 ts, c.tracks = t0 :: ts := by
      cases h : c.tracks with
      | nil => exact absurd h hne
      | cons a l => exact ⟨a, l, rfl⟩
    rw [normalizeComposition_split h ?_]
    intro hcon
    apply hc
    refine ⟨hcon.1, fun hb => hcon.2 ?_⟩
    rw [h] at hb ⊢
    exact hb
  · rw [normalizeComposition_nil hnil]

/-- C7 witness: a single-track composition is replaced by its two split
voices, and the three-track counterexample exercises the skip branch. -/
theorem c7_skip_condition_witness :
    ((c7cex.tracks ≠ [] → ¬ (2 < c7cex.tracks.length ∧ ¬ sameInstrumentOf c7cex.tracks = true) →
      (normalizeComposition c7cex).tracks =
        [(splitToGrandStaff c7cex.tracks).rh, (splitToGrandStaff c7cex.tracks).lh])) ∧
    (2 < c7cex.tracks.length ∧ ¬ sameInstrumentOf c7cex.tracks = true →
      normalizeComposition c7cex = c7cex) :=
  ⟨((c7_skip_condition c7cex).2).1, (c7_skip_condition c7cex).1⟩

/-! ## Claim C9: tempo determinism and range -/

theorem tempoRange_bounds (key : String) :
    (tempoRange key).1 ≤ (tempoRange key).2 ∧ 0 < (tempoRange key).2 - (tempoRange key).1 + 1 := by
  unfold tempoRange
  split_ifs <;> norm_num

/-- C9: the tempo is a pure function of `(style, title)` — equal inputs give
equal tempos, with no dependence on any random draw — and it always lies in
the profile range selected for the style (`[72, 96]` for styles containing
"bach" or "baroque", `[84, 120]` for unrecognized styles). -/
theorem c9_tempo_deterministic_range (style : String) (title : Option String)
    (style' : String) (title' : Option String)
    (h1 : style = style') (h2 : title = title') :
    tempoFromStyle style title = tempoFromStyle style' title' ∧
    (tempoRange (style.map Char.toLower)).1 ≤ tempoFromStyle style title ∧
    tempoFromStyle style title ≤ (tempoRange (style.map Char.toLower)).2 ∧
    ((strIncludes (style.map Char.toLower) "bach"
        || strIncludes (style.map Char.toLower) "baroque") = true →
      tempoRange (style.map Char.toLower) = (72, 96)) ∧
    (strIncludes (style.map Char.toLower) "bach" = false →
      strIncludes (style.map Char.toLower) "baroque" = false →
      strIncludes (style.map Char.toLower) "chopin" = false →
      strIncludes (style.map Char.toLower) "romantic" = false →
      strIncludes (style.map Char.toLower) "jazz" = false →
      tempoRange (style.map Char.toLower) = (84, 120)) := by
  subst h1 h2
  set key := style.map Char.toLower with hkey
  obtain ⟨hle, hpos⟩ := tempoRange_bounds key
  have hmod0 : 0 ≤ ((hashString (key ++ "|" ++ title.getD "")) : ℤ) % ((tempoRange key).2 - (tempoRange key).1 + 1) :=
    Int.emod_nonneg _ (by omega)
  have hmodlt : ((hashString (key ++ "|" ++ title.getD "")) : ℤ) % ((tempoRange key).2 - (tempoRange key).1 + 1)
      < (tempoRange key).2 - (tempoRange key).1 + 1 :=
    Int.emod_lt_of_pos _ hpos
  have htf : tempoFromStyle style title = (tempoRange key).1
      + ((hashString (key ++ "|" ++ title.getD "")) : ℤ)
        % ((tempoRange key).2 - (tempoRange key).1 + 1) := rfl
  refine ⟨rfl, ?_, ?_, ?_, ?_⟩
  · rw [htf]; omega
  · rw [htf]; omega
  · intro hb
    unfold tempoRange
    rw [if_pos hb]
  · intro h1 h2 h3 h4 h5
    unfold tempoRange
    rw [if_neg (by rw [h1, h2]; decide), if_neg (by rw [h3, h4]; decide), if_neg (by rw [h5]; decide)]

/-- C9 witness: the theorem applied at the concrete pair `("bach", "Fugue")`. -/
theorem c9_tempo_witness :
    tempoFromStyle "bach" (some "Fugue") = tempoFromStyle "bach" (some "Fugue") ∧
    (tempoRange ("bach".map Char.toLower)).1 ≤ tempoFromStyle "bach" (some "Fugue") ∧
    tempoFromStyle "bach" (some "Fugue") ≤ (tempoRange ("bach".map Char.toLower)).2 ∧
    ((strIncludes ("bach".map Char.toLower) "bach"
        || strIncludes ("bach".map Char.toLower) "baroque") = true →
      tempoRange ("bach".map Char.toLower) = (72, 96)) ∧
    (strIncludes ("bach".map Char.toLower) "bach" = false →
      strIncludes ("bach".map Char.toLower) "baroque" = false →
      strIncludes ("bach".map Char.toLower) "chopin" = false →
      strIncludes ("bach".map Char.toLower) "romantic" = false →
      strIncludes ("bach".map Char.toLower) "jazz" = false →
      tempoRange ("bach".map Char.toLower) = (84, 120)) :=
  c9_tempo_deterministic_range "bach" (some "Fugue") "bach" (some "Fugue") rfl rfl

/-! ## Claim C10: the final pitch segment is never emitted -/

theorem buildStep_fix {l : List Frame} :
    ∀ {st : BuildState}, (∀ f ∈ l, f.midi = st.currentMidi) → l.foldl buildStep st = st := by
  induction l with
  | nil => intro st _; rfl
  | cons f fs ih =>
      intro st h
      have h1 : buildStep st f = st := by
        unfold buildStep
        rw [if_pos (h f (List.mem_cons_self f fs))]
      rw [List.foldl_cons, h1]
      exact ih fun g hg => h g (List.mem_cons_of_mem f hg)

theorem buildStep_currentMidi (st : BuildState) (f : Frame) :
    (buildStep st f).currentMidi = f.midi := by
  unfold buildStep
  by_cases h : f.midi = st.currentMidi
  · rw [if_pos h]; exact h.symm
  · rw [if_neg h]

/-- C10: a pitch run that lasts to the end of the frame list contributes no
note, regardless of its length — the output over `pre ++ suffix` equals the
output over `pre` extended by just the first frame of the run, and a track
that is one single non-silent run from the start yields no notes at all. -/
theorem c10_final_segment_dropped (pre suffix : List Frame) (p : ℤ)
    (hne : suffix ≠ []) (hall : ∀ f ∈ suffix, f.midi = some p) :
    buildNotesFromPitchTrack (pre ++ suffix)
        = buildNotesFromPitchTrack (pre ++ suffix.take 1) ∧
    buildNotesFromPitchTrack suffix = [] := by
  match suffix, hne with
  | f :: rest, _ =>
    have hf : f.midi = some p := hall f (List.mem_cons_self f rest)
    have hrest : ∀ g ∈ rest, g.midi = some p :=
      fun g hg => hall g (List.mem_cons_of_mem f hg)
    constructor
    · unfold buildNotesFromPitchTrack
      rw [List.foldl_append, List.foldl_append]
      congr 1
      show List.foldl buildStep _ (f :: rest) = List.foldl buildStep _ ((f :: rest).take 1)
      rw [show (f :: rest).take 1 = [f] from rfl]
      rw [List.foldl_cons, List.foldl_cons, List.foldl_nil]
      apply buildStep_fix
      intro g hg
      rw [buildStep_currentMidi, hf]
      exact hrest g hg
    · unfold buildNotesFromPitchTrack
      rw [List.foldl_cons]
      have hst1 : buildStep { notes := [], currentMidi := none, startTime := 0 } f
          = { notes := [], currentMidi := f.midi, startTime := f.time } := by
        unfold buildStep
        rw [if_neg (by rw [hf]; simp)]
      rw [hst1, buildStep_fix (fun g hg => (hrest g hg).trans hf.symm)]

/-- C10 witness: a track that is a single sustained 440 Hz tone (MIDI 69)
from start to end produces no notes, however long the run. -/
theorem c10_final_segment_witness :
    buildNotesFromPitchTrack ([] ++ [{ time := 0, midi := some 69 }, { time := 1, midi := some 69 }])
        = buildNotesFromPitchTrack ([] ++ ([{ time := 0, midi := some 69 }, { time := 1, midi := some 69 }] : List Frame).take 1) ∧
    buildNotesFromPitchTrack [{ time := 0, midi := some 69 }, { time := 1, midi := some 69 }] = [] :=
  c10_final_segment_dropped [] [{ time := 0, midi := some 69 }, { time := 1, midi := some 69 }] 69
    (by simp)
    (by
      intro f hf
      rcases List.mem_cons.mp hf with h | h
      · rw [h]
      · rw [List.mem_singleton.mp h])

/-! ## Lemmas about the keyed onset map -/

theorem mapGet_mapSet_self (m : List (ℤ × List TickNote)) (k : ℤ) (v : List TickNote) :
    mapGet (mapSet m k v) k = v := by
  induction m with
  | nil => simp [mapSet, mapGet, List.lookup]
  | cons kv rest ih =>
      obtain ⟨k', v'⟩ := kv
      by_cases h : k' = k
      · simp [mapSet, if_pos h, mapGet, List.lookup, h]
      · simp only [mapSet, if_neg h]
        rw [show mapGet ((k', v') :: mapSet rest k v) k
            = mapGet (mapSet rest k v) k from ?_, ih]
        simp [mapGet, List.lookup, show (k == k') = false from by simp [Ne.symm h]]

theorem mapGet_mapSet_ne (m : List (ℤ × List TickNote)) {k k' : ℤ} (v : List TickNote)
    (h : k' ≠ k) : mapGet (mapSet m k v) k' = mapGet m k' := by
  induction m with
  | nil => simp [mapSet, mapGet, List.lookup, show (k' == k) = false from by simp [h]]
  | cons kv rest ih =>
      obtain ⟨k1, v1⟩ := kv
      by_cases h1 : k1 = k
      · subst h1
        simp [mapSet, mapGet, List.lookup, show (k' == k1) = false from by simp [h]]
      · simp only [mapSet, if_neg h1]
        by_cases h2 : k' = k1
        · simp [mapGet, List.lookup, h2]
        · simp only [mapGet, List.lookup, show (k' == k1) = false from by simp [h2]]
          exact ih

/-- Keys of `mapSet`: unchanged when the key is present, appended otherwise. -/
theorem mapSet_keys_mem (m : List (ℤ × List TickNote)) {k : ℤ} (v : List TickNote)
    (h : k ∈ m.map Prod.fst) : (mapSet m k v).map Prod.fst = m.map Prod.fst := by
  induction m with
  | nil => simp at h
  | cons kv rest ih =>
      obtain ⟨k1, v1⟩ := kv
      by_cases h1 : k1 = k
      · simp [mapSet, if_pos h1, h1]
      · simp only [List.map_cons] at h
        rcases List.mem_cons.mp h with h | h
        · exact absurd h.symm h1
        · simp [mapSet, if_neg h1, ih h]

theorem mapSet_keys_new (m : List (ℤ × List TickNote)) {k : ℤ} (v : List TickNote)
    (h : k ∉ m.map Prod.fst) : (mapSet m k v).map Prod.fst = m.map Prod.fst ++ [k] := by
  induction m with
  | nil => simp [mapSet]
  | cons kv rest ih =>
      obtain ⟨k1, v1⟩ := kv
      simp only [List.map_cons, List.mem_cons] at h
      push_neg at h
      simp [mapSet, if_neg (Ne.symm h.1), ih h.2]

theorem mapGet_eq_nil_of_not_mem (m : List (ℤ × List TickNote)) {k : ℤ}
    (h : k ∉ m.map Prod.fst) : mapGet m k = [] := by
  induction m with
  | nil => simp [mapGet, List.lookup]
  | cons kv rest ih =>
      obtain ⟨k1, v1⟩ := kv
      simp only [List.map_cons, List.mem_cons] at h
      push_neg at h
      simp only [mapGet, List.lookup, show (k == k1) = false from by simp [h.1]]
      exact ih h.2

theorem mapGet_ne_nil_mem (m : List (ℤ × List TickNote)) {k : ℤ}
    (h : mapGet m k ≠ []) : k ∈ m.map Prod.fst := by
  by_contra hc
  exact h (mapGet_eq_nil_of_not_mem m hc)

/-- One step of the `byTime` building fold. -/
def mapStep (toTime toDur : ℚ → ℤ) (acc : List (ℤ × List TickNote)) (n : Note) :
    List (ℤ × List TickNote) :=
  mapSet acc (toTime n.time)
    (mapGet acc (toTime n.time) ++ [⟨n.pitch, toTime n.time, toDur n.duration⟩])

theorem mapOfNotes_byTime (toTime toDur : ℚ → ℤ) (notes : List Note) :
    (mapOfNotes toTime toDur notes).byTime = notes.foldl (mapStep toTime toDur) [] := rfl

/-- The group at key `k` of the built map: the notes whose converted onset is
`k`, in input order, converted. -/
theorem mapFold_get (toTime toDur : ℚ → ℤ) :
    ∀ (notes : List Note) (acc : List (ℤ × List TickNote)) (k : ℤ),
      mapGet (notes.foldl (mapStep toTime toDur) acc) k
        = mapGet acc k ++ (notes.filter (fun n => toTime n.time = k)).map
            (fun n => ⟨n.pitch, toTime n.time, toDur n.duration⟩) := by
  intro notes
  induction notes with
  | nil => intro acc k; simp
  | cons n ns ih =>
      intro acc k
      rw [List.foldl_cons, ih]
      by_cases h : toTime n.time = k
      · rw [show mapStep toTime toDur acc n
            = mapSet acc k (mapGet acc k ++ [⟨n.pitch, toTime n.time, toDur n.duration⟩]) from by
              rw [mapStep, h]]
        rw [mapGet_mapSet_self]
        rw [List.filter_cons_of_pos (by simp [h]), List.map_cons, h]
        simp
      · rw [show mapGet (mapStep toTime toDur acc n) k = mapGet acc k from
          mapGet_mapSet_ne _ _ (fun hc => h hc.symm)]
        rw [List.filter_cons_of_neg (by simp [h])]

theorem mapOfNotes_get (toTime toDur : ℚ → ℤ) (notes : List Note) (k : ℤ) :
    mapGet (mapOfNotes toTime toDur notes).byTime k
      = (notes.filter (fun n => toTime n.time = k)).map
          (fun n => ⟨n.pitch, toTime n.time, toDur n.duration⟩) := by
  rw [mapOfNotes_byTime, mapFold_get]
  simp [mapGet, List.lookup]

/-- Key membership in the built map. -/
theorem mapFold_keys_mem (toTime toDur : ℚ → ℤ) :
    ∀ (notes : List Note) (acc : List (ℤ × List TickNote)) (k : ℤ),
      (k ∈ (notes.foldl (mapStep toTime toDur) acc).map Prod.fst
        ↔ k ∈ acc.map Prod.fst ∨ ∃ n ∈ notes, toTime n.time = k) := by
  intro notes
  induction notes with
  | nil => intro acc k; simp
  | cons n ns ih =>
      intro acc k
      rw [List.foldl_cons, ih]
      constructor
      · rintro (h | h)
        · by_cases hmem : toTime n.time ∈ acc.map Prod.fst
          · rw [mapStep, mapSet_keys_mem _ _ hmem] at h
            exact Or.inl h
          · rw [mapStep, mapSet_keys_new _ _ hmem] at h
            rcases List.mem_append.mp h with h | h
            · exact Or.inl h
            · simp only [List.mem_singleton] at h
              exact Or.inr ⟨n, List.mem_cons_self n ns, h.symm⟩
        · obtain ⟨n', hn', hk⟩ := h
          exact Or.inr ⟨n', List.mem_cons_of_mem n hn', hk⟩
      · rintro (h | ⟨n', hn', hk⟩)
        · left
          by_cases hmem : toTime n.time ∈ acc.map Prod.fst
          · rwa [mapStep, mapSet_keys_mem _ _ hmem]
          · rw [mapStep, mapSet_keys_new _ _ hmem]
            exact List.mem_append.mpr (Or.inl h)
        · rcases List.mem_cons.mp hn' with h | h
          · left
            subst h
            rw [← hk, mapStep]
            by_cases hmem : toTime n'.time ∈ acc.map Prod.fst
            · rwa [mapSet_keys_mem _ _ hmem]
            · rw [mapSet_keys_new _ _ hmem]
              simp
          · exact Or.inr ⟨n', h, hk⟩

theorem mapOfNotes_keys_mem (toTime toDur : ℚ → ℤ) (notes : List Note) (k : ℤ) :
    k ∈ (mapOfNotes toTime toDur notes).byTime.map Prod.fst
      ↔ ∃ n ∈ notes, toTime n.time = k := by
  rw [mapOfNotes_byTime, mapFold_keys_mem]
  simp

theorem mapOfNotes_get_ne_nil (toTime toDur : ℚ → ℤ) (notes : List Note) (k : ℤ) :
    mapGet (mapOfNotes toTime toDur notes).byTime k ≠ []
      ↔ ∃ n ∈ notes, toTime n.time = k := by
  rw [mapOfNotes_get]
  constructor
  · intro h
    rcases hf : notes.filter (fun n => toTime n.time = k) with _ | ⟨n, rest⟩
    · rw [hf] at h; simp at h
    · have hn : n ∈ notes.filter (fun n => toTime n.time = k) := by rw [hf]; simp
      rw [List.mem_filter] at hn
      exact ⟨n, hn.1, of_decide_eq_true hn.2⟩
  · rintro ⟨n, hn, hk⟩
    have : n ∈ notes.filter (fun n => toTime n.time = k) :=
      List.mem_filter.mpr ⟨hn, by simp [hk]⟩
    intro hc
    rw [List.map_eq_nil_iff] at hc
    rw [hc] at this
    simp at this

/-- `allTimes` of the built map is the ascending sort of its keys. -/
theorem mapOfNotes_allTimes (toTime toDur : ℚ → ℤ) (notes : List Note) :
    (mapOfNotes toTime toDur notes).allTimes
      = ((mapOfNotes toTime toDur notes).byTime.map Prod.fst).insertionSort (· ≤ ·) := rfl

theorem mapOfNotes_allTimes_sorted (toTime toDur : ℚ → ℤ) (notes : List Note) :
    List.Sorted (· ≤ ·) (mapOfNotes toTime toDur notes).allTimes :=
  List.sorted_insertionSort _ _

theorem mapOfNotes_allTimes_mem (toTime toDur : ℚ → ℤ) (notes : List Note) (k : ℤ) :
    k ∈ (mapOfNotes toTime toDur notes).allTimes ↔ ∃ n ∈ notes, toTime n.time = k := by
  rw [mapOfNotes_allTimes, List.mem_insertionSort, mapOfNotes_keys_mem]

/-- Every stored duration in a built map is at least 1, provided the
duration conversion is floored at 1. -/
theorem mapOfNotes_dur_pos (toTime toDur : ℚ → ℤ) (hD : ∀ d, 1 ≤ toDur d)
    (notes : List Note) (k : ℤ) :
    ∀ tn ∈ mapGet (mapOfNotes toTime toDur notes).byTime k, 1 ≤ tn.durationTicks := by
  intro tn htn
  rw [mapOfNotes_get] at htn
  obtain ⟨n, _, hn⟩ := List.mem_map.mp htn
  rw [← hn]
  exact hD n.duration

/-! ## Lemmas about `maxOfList` (`Math.max(...)`) -/

theorem foldl_max_init : ∀ (l : List ℤ) (acc : ℤ), acc ≤ l.foldl max acc := by
  intro l
  induction l with
  | nil => intro acc; exact le_refl acc
  | cons x xs ih =>
      intro acc
      exact le_trans (le_max_left acc x) (ih (max acc x))

theorem foldl_max_mem : ∀ (l : List ℤ) (acc x : ℤ), x ∈ l → x ≤ l.foldl max acc := by
  intro l
  induction l with
  | nil => intro acc x hx; simp at hx
  | cons y ys ih =>
      intro acc x hx
      rcases List.mem_cons.mp hx with h | h
      · subst h
        exact le_trans (le_max_right acc x) (foldl_max_init ys (max acc x))
      · exact ih (max acc y) x h

theorem le_maxOfList {l : List ℤ} {x : ℤ} (hx : x ∈ l) : x ≤ maxOfList l := by
  cases l with
  | nil => simp at hx
  | cons y ys =>
      rcases List.mem_cons.mp hx with h | h
      · subst h; exact foldl_max_init ys x
      · exact foldl_max_mem ys y x h

theorem one_le_maxOfList {l : List ℤ} (hne : l ≠ []) (h : ∀ x ∈ l, 1 ≤ x) :
    1 ≤ maxOfList l := by
  cases l with
  | nil => exact absurd rfl hne
  | cons y ys =>
      exact le_trans (h y (List.mem_cons_self y ys)) (le_maxOfList (List.mem_cons_self y ys))

/-! ## The walk: chaining, bounds, reachability, fuel insensitivity -/

/-- Tokens are emitted back to back: the first starts at the initial cursor
and each one starts where the previous one ended. -/
def Chained : ℤ → List Token → Prop
  | _, [] => True
  | c, tok :: rest => tok.start = c ∧ Chained (c + tok.dur) rest

section Walk

variable (byTime : List (ℤ × List TickNote)) (allTimes : List ℤ) (E : ℤ)

theorem fillMeasureGo_done (fuel : ℕ) (cursor : ℤ) (h : E ≤ cursor) :
    fillMeasureGo byTime allTimes E fuel cursor = [] := by
  cases fuel with
  | zero => rfl
  | succ fuel =>
      simp only [fillMeasureGo]
      rw [if_neg (not_lt.mpr h)]

theorem fillMeasureGo_chained :
    ∀ (fuel : ℕ) (cursor : ℤ),
      Chained cursor (fillMeasureGo byTime allTimes E fuel cursor) := by
  intro fuel
  induction fuel with
  | zero => intro cursor; exact trivial
  | succ fuel ih =>
      intro cursor
      simp only [fillMeasureGo]
      by_cases h : cursor < E
      · rw [if_pos h]
        by_cases hg : mapGet byTime cursor ≠ []
        · rw [if_pos hg]
          exact ⟨rfl, ih _⟩
        · rw [if_neg hg]
          exact ⟨rfl, by
            have := ih (cursor + ((allTimes.find? fun t => decide (cursor < t ∧ t < E)).getD E - cursor))
            simpa [Token.dur] using this⟩
      · rw [if_neg h]
        exact trivial

/-- The length of the rest emitted at `cursor` is positive. -/
theorem rest_gap_pos {cursor : ℤ} (hc : cursor < E) :
    1 ≤ (allTimes.find? (fun t => decide (cursor < t ∧ t < E))).getD E - cursor := by
  cases hfind : allTimes.find? (fun t => decide (cursor < t ∧ t < E)) with
  | none => simp only [Option.getD_none]; omega
  | some a =>
      have := List.find?_some hfind
      rw [decide_eq_true_eq] at this
      simp only [Option.getD_some]
      omega

theorem chord_dur_pos (hD : ∀ k, ∀ tn ∈ mapGet byTime k, 1 ≤ tn.durationTicks)
    {cursor : ℤ} (hg : mapGet byTime cursor ≠ []) :
    1 ≤ maxOfList ((mapGet byTime cursor).map TickNote.durationTicks) := by
  apply one_le_maxOfList
  · simpa using hg
  · intro x hx
    obtain ⟨tn, htn, hx⟩ := List.mem_map.mp hx
    rw [← hx]
    exact hD cursor tn htn

theorem fillMeasureGo_mem_bounds (hD : ∀ k, ∀ tn ∈ mapGet byTime k, 1 ≤ tn.durationTicks) :
    ∀ (fuel : ℕ) (cursor : ℤ) (tok : Token),
      tok ∈ fillMeasureGo byTime allTimes E fuel cursor →
        1 ≤ tok.dur ∧ cursor ≤ tok.start ∧ tok.start < E := by
  intro fuel
  induction fuel with
  | zero => intro cursor tok htok; simp [fillMeasureGo] at htok
  | succ fuel ih =>
      intro cursor tok htok
      simp only [fillMeasureGo] at htok
      by_cases h : cursor < E
      · rw [if_pos h] at htok
        by_cases hg : mapGet byTime cursor ≠ []
        · rw [if_pos hg] at htok
          rcases List.mem_cons.mp htok with h1 | h1
          · subst h1
            exact ⟨chord_dur_pos byTime hD hg, le_refl _, h⟩
          · have hd := chord_dur_pos byTime hD hg
            obtain ⟨h2, h3, h4⟩ := ih _ tok h1
            exact ⟨h2, by omega, h4⟩
        · rw [if_neg hg] at htok
          have hgap := rest_gap_pos allTimes E h
          rcases List.mem_cons.mp htok with h1 | h1
          · subst h1
            refine ⟨hgap, le_refl _, h⟩
          · obtain ⟨h2, h3, h4⟩ := ih _ tok h1
            exact ⟨h2, by omega, h4⟩
      · rw [if_neg h] at htok
        simp at htok

/-- Every simultaneity token carries the pitches of the full onset group at
its start and the group's longest duration. -/
theorem fillMeasureGo_chord_content :
    ∀ (fuel : ℕ) (cursor : ℤ) (s : ℤ) (ps : List ℤ) (d : ℤ),
      Token.chordTok s ps d ∈ fillMeasureGo byTime allTimes E fuel cursor →
        ps = (mapGet byTime s).map TickNote.pitch ∧
        d = maxOfList ((mapGet byTime s).map TickNote.durationTicks) ∧
        mapGet byTime s ≠ [] := by
  intro fuel
  induction fuel with
  | zero => intro cursor s ps d htok; simp [fillMeasureGo] at htok
  | succ fuel ih =>
      intro cursor s ps d htok
      simp only [fillMeasureGo] at htok
      by_cases h : cursor < E
      · rw [if_pos h] at htok
        by_cases hg : mapGet byTime cursor ≠ []
        · rw [if_pos hg] at htok
          rcases List.mem_cons.mp htok with h1 | h1
          · injection h1 with h1a h1b h1c
            subst h1a
            exact ⟨h1b, h1c, hg⟩
          · exact ih _ s ps d h1
        · rw [if_neg hg] at htok
          rcases List.mem_cons.mp htok with h1 | h1
          · exact absurd h1 (by simp)
          · exact ih _ s ps d h1
      · rw [if_neg h] at htok
        simp at htok

/-- The first element of a sorted list satisfying a predicate is a least
satisfying element. -/
theorem find?_sorted_le {l : List ℤ} (hs : List.Sorted (· ≤ ·) l) {p : ℤ → Bool} {k : ℤ}
    (hk : k ∈ l) (hpk : p k = true) :
    ∃ a, l.find? p = some a ∧ p a = true ∧ a ≤ k := by
  induction l with
  | nil => simp at hk
  | cons h t ih =>
      rw [List.sorted_cons] at hs
      by_cases hph : p h = true
      · refine ⟨h, List.find?_cons_of_pos t hph, hph, ?_⟩
        rcases List.mem_cons.mp hk with h1 | h1
        · exact le_of_eq h1.symm
        · exact hs.1 k h1
      · have hne : k ≠ h := fun hc => hph (hc ▸ hpk)
        have hkt : k ∈ t := by
          rcases List.mem_cons.mp hk with h1 | h1
          · exact absurd h1 hne
          · exact h1
        obtain ⟨a, ha1, ha2, ha3⟩ := ih hs.2 hkt
        exact ⟨a, by rw [List.find?_cons_of_neg t (by simp [hph]), ha1], ha2, ha3⟩

/-- Reachability: the onset key `k` is visited and emitted as its full
simultaneity provided no earlier onset group (at or after the cursor's lower
bound) spans strictly past `k` — a chord step from an earlier group then
lands at or before `k`, and a rest step never jumps past an onset. -/
theorem fillMeasureGo_reaches
    (hD : ∀ k, ∀ tn ∈ mapGet byTime k, 1 ≤ tn.durationTicks)
    (hs : List.Sorted (· ≤ ·) allTimes)
    (hmem : ∀ t, mapGet byTime t ≠ [] → t ∈ allTimes)
    (lo k : ℤ)
    (hover : ∀ k1, lo ≤ k1 → k1 < k → mapGet byTime k1 ≠ [] →
        k1 + maxOfList ((mapGet byTime k1).map TickNote.durationTicks) ≤ k) :
    ∀ (fuel : ℕ) (cursor : ℤ), lo ≤ cursor → cursor ≤ k → k < E →
      mapGet byTime k ≠ [] → (E - cursor).toNat ≤ fuel →
      Token.chordTok k ((mapGet byTime k).map TickNote.pitch)
          (maxOfList ((mapGet byTime k).map TickNote.durationTicks))
        ∈ fillMeasureGo byTime allTimes E fuel cursor := by
  intro fuel
  induction fuel with
  | zero =>
      intro cursor hlo hck hkE hk hfuel
      exfalso
      omega
  | succ fuel ih =>
      intro cursor hlo hck hkE hk hfuel
      have hc : cursor < E := lt_of_le_of_lt hck hkE
      simp only [fillMeasureGo]
      rw [if_pos hc]
      by_cases hg : mapGet byTime cursor ≠ []
      · rw [if_pos hg]
        by_cases hck2 : cursor = k
        · subst hck2
          exact List.mem_cons_self _ _
        · have hlt : cursor < k := lt_of_le_of_ne hck hck2
          have hadv := hover cursor hlo hlt hg
          have hd1 := chord_dur_pos byTime hD hg
          refine List.mem_cons_of_mem _ (ih _ (by omega) hadv hkE hk (by omega))
      · rw [if_neg hg]
        have hkt : k ∈ allTimes := hmem k hk
        have hlt : cursor < k := by
          rcases lt_or_eq_of_le hck with h | h
          · exact h
          · exact absurd (h ▸ hk) hg
        have hpk : (fun t => decide (cursor < t ∧ t < E)) k = true := by
          rw [decide_eq_true_eq]; exact ⟨hlt, hkE⟩
        obtain ⟨a, hfind, hpa, hak⟩ :=
          find?_sorted_le (p := fun t => decide (cursor < t ∧ t < E)) hs hkt hpk
        rw [decide_eq_true_eq] at hpa
        rw [hfind]
        simp only [Option.getD_some]
        have : cursor + (a - cursor) = a := by ring
        rw [this]
        exact List.mem_cons_of_mem _ (ih a (by omega) hak hkE hk (by omega))

/-- A measure whose span holds no onset is rendered as one full-measure rest. -/
theorem fillMeasureGo_empty_measure {cursor : ℤ} (fuel : ℕ)
    (hfind : ∀ t ∈ allTimes, ¬(cursor < t ∧ t < E))
    (hg : mapGet byTime cursor = []) (hc : cursor < E) :
    fillMeasureGo byTime allTimes E (fuel + 1) cursor
      = [Token.restTok cursor (E - cursor)] := by
  simp only [fillMeasureGo]
  rw [if_pos hc, if_neg (by simpa using hg)]
  have hnone : allTimes.find? (fun t => decide (cursor < t ∧ t < E)) = none := by
    rw [List.find?_eq_none]
    intro t ht
    simpa using hfind t ht
  rw [hnone]
  simp only [Option.getD_none]
  rw [show cursor + (E - cursor) = E from by ring, fillMeasureGo_done byTime allTimes E fuel E (le_refl E)]

/-- Fuel insensitivity: any fuel at least the remaining span gives the same
token list (with positive stored durations every step advances by ≥ 1). -/
theorem fillMeasureGo_fuel (hD : ∀ k, ∀ tn ∈ mapGet byTime k, 1 ≤ tn.durationTicks) :
    ∀ (fuel₁ fuel₂ : ℕ) (cursor : ℤ), (E - cursor).toNat ≤ fuel₁ → (E - cursor).toNat ≤ fuel₂ →
      fillMeasureGo byTime allTimes E fuel₁ cursor = fillMeasureGo byTime allTimes E fuel₂ cursor := by
  intro fuel₁
  induction fuel₁ with
  | zero =>
      intro fuel₂ cursor h1 h2
      have hEc : E ≤ cursor := by omega
      rw [fillMeasureGo_done byTime allTimes E _ _ hEc, fillMeasureGo_done byTime allTimes E _ _ hEc]
  | succ fuel₁ ih =>
      intro fuel₂ cursor h1 h2
      by_cases hc : cursor < E
      · obtain ⟨fuel₂', rfl⟩ : ∃ f, fuel₂ = f + 1 := by
          cases fuel₂ with
          | zero => exfalso; omega
          | succ f => exact ⟨f, rfl⟩
        simp only [fillMeasureGo]
        rw [if_pos hc, if_pos hc]
        by_cases hg : mapGet byTime cursor ≠ []
        · rw [if_pos hg, if_pos hg]
          have hd1 := chord_dur_pos byTime hD hg
          congr 1
          exact ih fuel₂' _ (by omega) (by omega)
        · rw [if_neg hg, if_neg hg]
          have hgap := rest_gap_pos allTimes E hc
          congr 1
          exact ih fuel₂' _ (by omega) (by omega)
      · have hEc : E ≤ cursor := not_lt.mp hc
        rw [fillMeasureGo_done byTime allTimes E _ _ hEc, fillMeasureGo_done byTime allTimes E _ _ hEc]

end Walk

/-- Strictly increasing starts (hence no two tokens share a start) for any
chained token list with positive durations. -/
theorem chained_pairwise :
    ∀ {toks : List Token} {c : ℤ}, Chained c toks → (∀ tok ∈ toks, 1 ≤ tok.dur) →
      List.Pairwise (fun a b => a.start < b.start) toks ∧ ∀ tok ∈ toks, c ≤ tok.start := by
  intro toks
  induction toks with
  | nil => intro c _ _; exact ⟨List.Pairwise.nil, by simp⟩
  | cons tok rest ih =>
      intro c hch hd
      obtain ⟨hstart, hch'⟩ := hch
      have hd' : ∀ t ∈ rest, 1 ≤ t.dur := fun t ht => hd t (List.mem_cons_of_mem tok ht)
      obtain ⟨hpw, hlb⟩ := ih hch' hd'
      have hdtok := hd tok (List.mem_cons_self tok rest)
      refine ⟨List.Pairwise.cons ?_ hpw, ?_⟩
      · intro b hb
        have := hlb b hb
        omega
      · intro t ht
        rcases List.mem_cons.mp ht with h | h
        · subst h; omega
        · have := hlb t h
          omega

/-! ## Instantiating the walk lemmas at the two encoders -/

theorem abc_map_dur_pos (notes : List Note) :
    ∀ k, ∀ tn ∈ mapGet (Abc.buildTimeMap notes).byTime k, 1 ≤ tn.durationTicks :=
  fun k => mapOfNotes_dur_pos _ _ (fun _ => le_max_left 1 _) notes k

theorem xml_map_dur_pos (notes : List Note) :
    ∀ k, ∀ tn ∈ mapGet (Xml.buildMeasureMap notes).byTime k, 1 ≤ tn.durationTicks :=
  fun k => mapOfNotes_dur_pos _ _ (fun _ => le_max_left 1 _) notes k

/-- The XML walk with its rest clamp agrees with the shared walk: inside a
measure the gap is always between 1 and a full measure, so the clamp is the
identity. -/
theorem fillMeasureXmlGo_eq (byTime : List (ℤ × List TickNote)) (allTimes : List ℤ) (E : ℤ)
    (hD : ∀ k, ∀ tn ∈ mapGet byTime k, 1 ≤ tn.durationTicks) :
    ∀ (fuel : ℕ) (cursor : ℤ), E - cursor ≤ Xml.TICKS_PER_MEASURE →
      Xml.fillMeasureXmlGo byTime allTimes E fuel cursor
        = fillMeasureGo byTime allTimes E fuel cursor := by
  intro fuel
  induction fuel with
  | zero => intro cursor _; rfl
  | succ fuel ih =>
      intro cursor hspan
      simp only [Xml.fillMeasureXmlGo, fillMeasureGo]
      by_cases hc : cursor < E
      · rw [if_pos hc, if_pos hc]
        by_cases hg : mapGet byTime cursor ≠ []
        · rw [if_pos hg, if_pos hg]
          have hd1 := chord_dur_pos byTime hD hg
          congr 1
          exact ih _ (by rw [Xml.TICKS_PER_MEASURE] at *; omega)
        · rw [if_neg hg, if_neg hg]
          have hgap := rest_gap_pos allTimes E hc
          set gap := (allTimes.find? fun t => decide (cursor < t ∧ t < E)).getD E - cursor with hgapdef
          have hgap32 : gap ≤ Xml.TICKS_PER_MEASURE := by
            rw [hgapdef]
            cases hfind : allTimes.find? fun t => decide (cursor < t ∧ t < E) with
            | none => simp only [Option.getD_none]; omega
            | some a =>
                have := List.find?_some hfind
                rw [decide_eq_true_eq] at this
                simp only [Option.getD_some]
                rw [Xml.TICKS_PER_MEASURE] at *
                omega
          have hclamp : Xml.clampZ gap 1 Xml.TICKS_PER_MEASURE = gap := by
            rw [Xml.clampZ, max_eq_right (by omega), min_eq_right hgap32]
          rw [hclamp]
          congr 1
          exact ih _ (by rw [Xml.TICKS_PER_MEASURE] at *; omega)
      · rw [if_neg hc, if_neg hc]

theorem xml_measureTokens_eq (tm : TimeMap)
    (hD : ∀ k, ∀ tn ∈ mapGet tm.byTime k, 1 ≤ tn.durationTicks) (m : ℤ) :
    Xml.measureTokens tm m
      = fillMeasureGo tm.byTime tm.allTimes ((m + 1) * Xml.TICKS_PER_MEASURE)
          Xml.TICKS_PER_MEASURE.toNat (m * Xml.TICKS_PER_MEASURE) := by
  apply fillMeasureXmlGo_eq tm.byTime tm.allTimes _ hD
  have : (m + 1) * Xml.TICKS_PER_MEASURE - m * Xml.TICKS_PER_MEASURE = Xml.TICKS_PER_MEASURE := by
    ring
  rw [this]

/-! ## Claim C4: the chord tie-break -/

/-- C4: in both encoders, all notes at one quantized onset are emitted as one
single simultaneity token whose length is the longest concurrent note, the
cursor advances by exactly that length (`Chained`), starts are strictly
increasing (so no onset ever yields two tokens), and a group present at the
measure start is emitted as the measure's first token. -/
theorem c4_chord_tie_break (notes : List Note) (m : ℤ) :
    (Chained (m * Abc.ticksPerMeasure) (Abc.measureTokens (Abc.buildTimeMap notes) m) ∧
     List.Pairwise (fun a b => a.start < b.start) (Abc.measureTokens (Abc.buildTimeMap notes) m) ∧
     (∀ s ps d, Token.chordTok s ps d ∈ Abc.measureTokens (Abc.buildTimeMap notes) m →
        ps = (notes.filter (fun n => Abc.toTicksTime n.time = s)).map Note.pitch ∧
        d = maxOfList ((notes.filter (fun n => Abc.toTicksTime n.time = s)).map
              (fun n => Abc.toTicksDuration n.duration)))) ∧
    (Chained (m * Xml.TICKS_PER_MEASURE) (Xml.measureTokens (Xml.buildMeasureMap notes) m) ∧
     List.Pairwise (fun a b => a.start < b.start) (Xml.measureTokens (Xml.buildMeasureMap notes) m) ∧
     (∀ s ps d, Token.chordTok s ps d ∈ Xml.measureTokens (Xml.buildMeasureMap notes) m →
        ps = (notes.filter (fun n => Xml.toTicks n.time = s)).map Note.pitch ∧
        d = maxOfList ((notes.filter (fun n => Xml.toTicks n.time = s)).map
              (fun n => max 1 (Xml.toTicks n.duration))))) := by
  have habc_dur := abc_map_dur_pos notes
  have hxml_dur := xml_map_dur_pos notes
  have habc_tokens : Abc.measureTokens (Abc.buildTimeMap notes) m
      = fillMeasureGo (Abc.buildTimeMap notes).byTime (Abc.buildTimeMap notes).allTimes
          ((m + 1) * Abc.ticksPerMeasure) Abc.ticksPerMeasure.toNat (m * Abc.ticksPerMeasure) := rfl
  have hxml_tokens := xml_measureTokens_eq (Xml.buildMeasureMap notes) hxml_dur m
  constructor
  · refine ⟨fillMeasureGo_chained _ _ _ _ _, ?_, ?_⟩
    · rw [habc_tokens]
      refine (chained_pairwise (fillMeasureGo_chained _ _ _ _ _) ?_).1
      intro tok htok
      exact (fillMeasureGo_mem_bounds _ _ _ habc_dur _ _ tok htok).1
    · intro s ps d htok
      rw [habc_tokens] at htok
      obtain ⟨hps, hd, _⟩ := fillMeasureGo_chord_content _ _ _ _ _ s ps d htok
      rw [Abc.buildTimeMap, mapOfNotes_get] at hps hd
      constructor
      · rw [hps, List.map_map]; rfl
      · rw [hd, List.map_map]; rfl
  · constructor
    · rw [hxml_tokens]
      exact fillMeasureGo_chained _ _ _ _ _
    constructor
    · rw [hxml_tokens]
      refine (chained_pairwise (fillMeasureGo_chained _ _ _ _ _) ?_).1
      intro tok htok
      exact (fillMeasureGo_mem_bounds _ _ _ hxml_dur _ _ tok htok).1
    · intro s ps d htok
      rw [hxml_tokens] at htok
      obtain ⟨hps, hd, _⟩ := fillMeasureGo_chord_content _ _ _ _ _ s ps d htok
      rw [Xml.buildMeasureMap, mapOfNotes_get] at hps hd
      constructor
      · rw [hps, List.map_map]; rfl
      · rw [hd, List.map_map]; rfl

/-- The claim's concrete instance: two notes at beat 0 with durations 1 and 2
beats. -/
def c4notes : List Note :=
  [{ pitch := 72, time := 0, duration := 1, velocity := 1 },
   { pitch := 76, time := 0, duration := 2, velocity := 1 }]

theorem abc_toTicksTime_zero : Abc.toTicksTime 0 = 0 := by
  rw [Abc.toTicksTime, jsRound, TIME_GRID]
  norm_num

theorem abc_toTicksDuration_one : Abc.toTicksDuration 1 = 4 := by
  rw [Abc.toTicksDuration, jsRound, TIME_GRID]
  norm_num

theorem abc_toTicksDuration_two : Abc.toTicksDuration 2 = 8 := by
  rw [Abc.toTicksDuration, jsRound, TIME_GRID]
  norm_num

theorem xml_toTicks_zero : Xml.toTicks 0 = 0 := by
  rw [Xml.toTicks, jsRound, Xml.DIVISIONS]
  norm_num

theorem xml_toTicks_one : Xml.toTicks 1 = 8 := by
  rw [Xml.toTicks, jsRound, Xml.DIVISIONS]
  norm_num

theorem xml_toTicks_two : Xml.toTicks 2 = 16 := by
  rw [Xml.toTicks, jsRound, Xml.DIVISIONS]
  norm_num

theorem c4_abc_map :
    Abc.buildTimeMap c4notes = ⟨[(0, [⟨72, 0, 4⟩, ⟨76, 0, 8⟩])], [0]⟩ := by
  have hbt : (Abc.buildTimeMap c4notes).byTime = [(0, [⟨72, 0, 4⟩, ⟨76, 0, 8⟩])] := by
    rw [Abc.buildTimeMap, mapOfNotes_byTime]
    simp only [c4notes, List.foldl_cons, List.foldl_nil, mapStep,
      abc_toTicksTime_zero, abc_toTicksDuration_one, abc_toTicksDuration_two]
    rfl
  have hat : (Abc.buildTimeMap c4notes).allTimes = [0] := by
    rw [Abc.buildTimeMap, mapOfNotes_allTimes, ← Abc.buildTimeMap, hbt]
    rfl
  rw [show Abc.buildTimeMap c4notes
      = TimeMap.mk (Abc.buildTimeMap c4notes).byTime (Abc.buildTimeMap c4notes).allTimes from rfl,
    hbt, hat]

theorem c4_xml_map :
    Xml.buildMeasureMap c4notes = ⟨[(0, [⟨72, 0, 8⟩, ⟨76, 0, 16⟩])], [0]⟩ := by
  have hbt : (Xml.buildMeasureMap c4notes).byTime = [(0, [⟨72, 0, 8⟩, ⟨76, 0, 16⟩])] := by
    rw [Xml.buildMeasureMap, mapOfNotes_byTime]
    simp only [c4notes, List.foldl_cons, List.foldl_nil, mapStep,
      xml_toTicks_zero, xml_toTicks_one, xml_toTicks_two]
    rfl
  have hat : (Xml.buildMeasureMap c4notes).allTimes = [0] := by
    rw [Xml.buildMeasureMap, mapOfNotes_allTimes, ← Xml.buildMeasureMap, hbt]
    rfl
  rw [show Xml.buildMeasureMap c4notes
      = TimeMap.mk (Xml.buildMeasureMap c4notes).byTime (Xml.buildMeasureMap c4notes).allTimes from rfl,
    hbt, hat]

/-- C4 witness: on the claim's instance both encoders emit one single chord
token of length two beats (8 ABC ticks, 16 XML ticks) followed by a half
measure of rest. -/
theorem c4_chord_tie_break_witness :
    Abc.measureTokens (Abc.buildTimeMap c4notes) 0
        = [Token.chordTok 0 [72, 76] 8, Token.restTok 8 8] ∧
    Xml.measureTokens (Xml.buildMeasureMap c4notes) 0
        = [Token.chordTok 0 [72, 76] 16, Token.restTok 16 16] ∧
    Chained (0 * Abc.ticksPerMeasure) (Abc.measureTokens (Abc.buildTimeMap c4notes) 0) := by
  refine ⟨?_, ?_, (c4_chord_tie_break c4notes 0).1.1⟩
  · rw [c4_abc_map]
    decide
  · rw [c4_xml_map]
    decide

/-! ## Normalized notes -/

/-- A note whose timing already sits on the grid: `time` a nonnegative and
`duration` a positive multiple of `TIME_GRID`. -/
def NormalizedNote (n : Note) : Prop :=
  (∃ k : ℤ, 0 ≤ k ∧ n.time = (k : ℚ) * TIME_GRID) ∧
  (∃ m : ℤ, 1 ≤ m ∧ n.duration = (m : ℚ) * TIME_GRID)

theorem normalizeNote_fix (n : Note) (hN : NormalizedNote n)
    (hv : 1/20 ≤ n.velocity ∧ n.velocity ≤ 1) : normalizeNote n = n := by
  obtain ⟨⟨k, hk, ht⟩, ⟨m, hm, hd⟩⟩ := hN
  have hgrid : (0 : ℚ) ≤ TIME_GRID := by norm_num [TIME_GRID]
  have htime : max 0 (quantize n.time) = n.time := by
    rw [ht, quantize_int_mul, max_eq_right]
    exact mul_nonneg (by exact_mod_cast hk) hgrid
  have hdur : max TIME_GRID (quantize n.duration) = n.duration := by
    rw [hd, quantize_int_mul, max_eq_right]
    calc TIME_GRID = 1 * TIME_GRID := (one_mul _).symm
    _ ≤ (m : ℚ) * TIME_GRID :=
        mul_le_mul_of_nonneg_right (by exact_mod_cast hm) hgrid
  have hvel : clamp n.velocity (1/20) 1 = n.velocity := by
    rw [clamp, max_eq_right hv.1, min_eq_right hv.2]
  cases n with
  | mk p t d v =>
    simp only [normalizeNote] at *
    rw [htime, hdur, hvel]

/-! ## Claim C3: notes inside a longer simultaneity's span are dropped -/

/-- The measure that holds a note's quantized ABC onset. -/
def abcMeasureIndexOf (n : Note) : ℤ := Abc.toTicksTime n.time / Abc.ticksPerMeasure

/-- The measure that holds a note's quantized XML onset. -/
def xmlMeasureIndexOf (n : Note) : ℤ := Xml.toTicks n.time / Xml.TICKS_PER_MEASURE

/-- The per-note proviso: no earlier onset group of the note's measure (from
the measure start `lo` up to, but not including, the note's `onset`) spans
strictly past that onset with its longest duration. -/
def NoEarlierSpanPast (byTime : List (ℤ × List TickNote)) (lo onset : ℤ) : Prop :=
  ∀ k1, lo ≤ k1 → k1 < onset → mapGet byTime k1 ≠ [] →
    k1 + maxOfList ((mapGet byTime k1).map TickNote.durationTicks) ≤ onset

theorem measure_bounds {k tpm : ℤ} (hk : 0 ≤ k) (htpm : 0 < tpm) :
    (k / tpm) * tpm ≤ k ∧ k < (k / tpm + 1) * tpm := by
  have h1 := Int.ediv_add_emod k tpm
  have h2 := Int.emod_nonneg k (ne_of_gt htpm)
  have h3 := Int.emod_lt_of_pos k htpm
  constructor <;> nlinarith [h1, h2, h3]

/-- C3 (amended): a note is emitted at its quantized onset provided no earlier
simultaneity group in its measure spans strictly past that onset; the
counterexample below shows the claim fails without that proviso. -/
theorem c3_no_silent_drop_amended (notes : List Note) (n : Note) (hn : n ∈ notes)
    (hA : NoEarlierSpanPast (Abc.buildTimeMap notes).byTime
        (abcMeasureIndexOf n * Abc.ticksPerMeasure) (Abc.toTicksTime n.time))
    (hX : NoEarlierSpanPast (Xml.buildMeasureMap notes).byTime
        (xmlMeasureIndexOf n * Xml.TICKS_PER_MEASURE) (Xml.toTicks n.time)) :
    (∃ tok ∈ Abc.measureTokens (Abc.buildTimeMap notes) (abcMeasureIndexOf n),
        tok.start = Abc.toTicksTime n.time ∧ n.pitch ∈ tok.pitches) ∧
    (∃ tok ∈ Xml.measureTokens (Xml.buildMeasureMap notes) (xmlMeasureIndexOf n),
        tok.start = Xml.toTicks n.time ∧ n.pitch ∈ tok.pitches) := by
  constructor
  · set tm := Abc.buildTimeMap notes with htm
    set k := Abc.toTicksTime n.time with hkdef
    have hk0 : 0 ≤ k := le_max_left 0 _
    have htpm : (0 : ℤ) < Abc.ticksPerMeasure := by rw [Abc.ticksPerMeasure]; omega
    obtain ⟨hb1, hb2⟩ := measure_bounds hk0 htpm
    have hkne : mapGet tm.byTime k ≠ [] := by
      rw [htm, Abc.buildTimeMap, mapOfNotes_get_ne_nil]
      exact ⟨n, hn, rfl⟩
    have htok := fillMeasureGo_reaches tm.byTime tm.allTimes
      ((abcMeasureIndexOf n + 1) * Abc.ticksPerMeasure)
      (fun k' => by rw [htm]; exact abc_map_dur_pos notes k')
      (by rw [htm]; exact mapOfNotes_allTimes_sorted _ _ _)
      (fun t ht => by
        rw [htm, Abc.buildTimeMap, mapOfNotes_get_ne_nil] at ht
        rw [htm, Abc.buildTimeMap, mapOfNotes_allTimes_mem]
        exact ht)
      (abcMeasureIndexOf n * Abc.ticksPerMeasure) k hA
      Abc.ticksPerMeasure.toNat (abcMeasureIndexOf n * Abc.ticksPerMeasure)
      (le_refl _) hb1 hb2 hkne
      (by
        have : (abcMeasureIndexOf n + 1) * Abc.ticksPerMeasure
            - abcMeasureIndexOf n * Abc.ticksPerMeasure = Abc.ticksPerMeasure := by ring
        rw [this])
    refine ⟨_, htok, rfl, ?_⟩
    show n.pitch ∈ Token.pitches _
    rw [Token.pitches, htm, Abc.buildTimeMap, mapOfNotes_get]
    rw [List.map_map]
    exact List.mem_map.mpr ⟨n, List.mem_filter.mpr ⟨hn, by simp [hkdef]⟩, rfl⟩
  · set tm := Xml.buildMeasureMap notes with htm
    set k := Xml.toTicks n.time with hkdef
    have hk0 : 0 ≤ k := le_max_left 0 _
    have htpm : (0 : ℤ) < Xml.TICKS_PER_MEASURE := by rw [Xml.TICKS_PER_MEASURE]; omega
    obtain ⟨hb1, hb2⟩ := measure_bounds hk0 htpm
    have hkne : mapGet tm.byTime k ≠ [] := by
      rw [htm, Xml.buildMeasureMap, mapOfNotes_get_ne_nil]
      exact ⟨n, hn, rfl⟩
    have hD : ∀ k', ∀ tn ∈ mapGet tm.byTime k', 1 ≤ tn.durationTicks := by
      rw [htm]; exact xml_map_dur_pos notes
    have htok := fillMeasureGo_reaches tm.byTime tm.allTimes
      ((xmlMeasureIndexOf n + 1) * Xml.TICKS_PER_MEASURE)
      hD
      (by rw [htm]; exact mapOfNotes_allTimes_sorted _ _ _)
      (fun t ht => by
        rw [htm, Xml.buildMeasureMap, mapOfNotes_get_ne_nil] at ht
        rw [htm, Xml.buildMeasureMap, mapOfNotes_allTimes_mem]
        exact ht)
      (xmlMeasureIndexOf n * Xml.TICKS_PER_MEASURE) k hX
      Xml.TICKS_PER_MEASURE.toNat (xmlMeasureIndexOf n * Xml.TICKS_PER_MEASURE)
      (le_refl _) hb1 hb2 hkne
      (by
        have : (xmlMeasureIndexOf n + 1) * Xml.TICKS_PER_MEASURE
            - xmlMeasureIndexOf n * Xml.TICKS_PER_MEASURE = Xml.TICKS_PER_MEASURE := by ring
        rw [this])
    rw [← xml_measureTokens_eq tm hD] at htok
    refine ⟨_, htok, rfl, ?_⟩
    show n.pitch ∈ Token.pitches _
    rw [Token.pitches, htm, Xml.buildMeasureMap, mapOfNotes_get]
    rw [List.map_map]
    exact List.mem_map.mpr ⟨n, List.mem_filter.mpr ⟨hn, by simp [hkdef]⟩, rfl⟩

def c3wNote : Note := { pitch := 60, time := 0, duration := 1, velocity := 1 }

def c3wNotes : List Note := [c3wNote]

theorem c3w_abc_map :
    Abc.buildTimeMap c3wNotes = ⟨[(0, [⟨60, 0, 4⟩])], [0]⟩ := by
  have hbt : (Abc.buildTimeMap c3wNotes).byTime = [(0, [⟨60, 0, 4⟩])] := by
    rw [Abc.buildTimeMap, mapOfNotes_byTime]
    simp only [c3wNotes, c3wNote, List.foldl_cons, List.foldl_nil, mapStep,
      abc_toTicksTime_zero, abc_toTicksDuration_one]
    rfl
  have hat : (Abc.buildTimeMap c3wNotes).allTimes = [0] := by
    rw [Abc.buildTimeMap, mapOfNotes_allTimes, ← Abc.buildTimeMap, hbt]
    rfl
  rw [show Abc.buildTimeMap c3wNotes
      = TimeMap.mk (Abc.buildTimeMap c3wNotes).byTime (Abc.buildTimeMap c3wNotes).allTimes from rfl,
    hbt, hat]

theorem c3w_xml_map :
    Xml.buildMeasureMap c3wNotes = ⟨[(0, [⟨60, 0, 8⟩])], [0]⟩ := by
  have hbt : (Xml.buildMeasureMap c3wNotes).byTime = [(0, [⟨60, 0, 8⟩])] := by
    rw [Xml.buildMeasureMap, mapOfNotes_byTime]
    simp only [c3wNotes, c3wNote, List.foldl_cons, List.foldl_nil, mapStep,
      xml_toTicks_zero, xml_toTicks_one]
    rfl
  have hat : (Xml.buildMeasureMap c3wNotes).allTimes = [0] := by
    rw [Xml.buildMeasureMap, mapOfNotes_allTimes, ← Xml.buildMeasureMap, hbt]
    rfl
  rw [show Xml.buildMeasureMap c3wNotes
      = TimeMap.mk (Xml.buildMeasureMap c3wNotes).byTime (Xml.buildMeasureMap c3wNotes).allTimes from rfl,
    hbt, hat]

/-- C3 witness: on a single-note voice the non-overlap proviso holds and the
note is emitted at its onset by both encoders. -/
theorem c3_no_silent_drop_witness :
    (∃ tok ∈ Abc.measureTokens (Abc.buildTimeMap c3wNotes) (abcMeasureIndexOf c3wNote),
        tok.start = Abc.toTicksTime c3wNote.time ∧ c3wNote.pitch ∈ tok.pitches) ∧
    (∃ tok ∈ Xml.measureTokens (Xml.buildMeasureMap c3wNotes) (xmlMeasureIndexOf c3wNote),
        tok.start = Xml.toTicks c3wNote.time ∧ c3wNote.pitch ∈ tok.pitches) := by
  apply c3_no_silent_drop_amended c3wNotes c3wNote (List.mem_singleton.mpr rfl)
  · intro k1 _ hlt hg1
    exfalso
    have m1 := mapGet_ne_nil_mem _ hg1
    rw [c3w_abc_map] at m1
    simp only [List.map_cons, List.map_nil, List.mem_singleton] at m1
    rw [show Abc.toTicksTime c3wNote.time = 0 from by
      rw [show c3wNote.time = (0 : ℚ) from rfl, abc_toTicksTime_zero]] at hlt
    omega
  · intro k1 _ hlt hg1
    exfalso
    have m1 := mapGet_ne_nil_mem _ hg1
    rw [c3w_xml_map] at m1
    simp only [List.map_cons, List.map_nil, List.mem_singleton] at m1
    rw [show Xml.toTicks c3wNote.time = 0 from by
      rw [show c3wNote.time = (0 : ℚ) from rfl, xml_toTicks_zero]] at hlt
    omega

/-! ## C3 counterexample: a note starting inside a longer concurrent note -/

def c3cexNotes : List Note :=
  [{ pitch := 72, time := 0, duration := 2, velocity := 1 },
   { pitch := 76, time := 1, duration := 1, velocity := 1 }]

def c3cexComp : Composition :=
  { title := "T", subtitle := none, composer := "C", style := "s", tempo := 100
    tracks := [{ instrument := "Piano", volume := 1, notes := c3cexNotes }]
    abcNotation := "" }

theorem abc_toTicksTime_one : Abc.toTicksTime 1 = 4 := by
  rw [Abc.toTicksTime, jsRound, TIME_GRID]
  norm_num

theorem c3cex_voice :
    (Abc.voices c3cexComp).1 = c3cexNotes ∧
    (Xml.splitToGrandStaff c3cexComp.tracks).1 = c3cexNotes := by
  have h1 : normalizeNote { pitch := 72, time := 0, duration := 2, velocity := 1 }
      = { pitch := 72, time := 0, duration := 2, velocity := 1 } :=
    normalizeNote_fix _
      ⟨⟨0, le_refl 0, by norm_num [TIME_GRID]⟩, ⟨8, by norm_num, by norm_num [TIME_GRID]⟩⟩
      ⟨by norm_num, by norm_num⟩
  have h2 : normalizeNote { pitch := 76, time := 1, duration := 1, velocity := 1 }
      = { pitch := 76, time := 1, duration := 1, velocity := 1 } :=
    normalizeNote_fix _
      ⟨⟨4, by norm_num, by norm_num [TIME_GRID]⟩, ⟨4, by norm_num, by norm_num [TIME_GRID]⟩⟩
      ⟨by norm_num, by norm_num⟩
  have hmapn : c3cexNotes.map normalizeNote = c3cexNotes := by
    simp only [c3cexNotes, List.map_cons, List.map_nil, h1, h2]
  constructor
  · show ((splitToGrandStaff c3cexComp.tracks).rh.notes).insertionSort Abc.timeLe = c3cexNotes
    have hrh : (splitToGrandStaff c3cexComp.tracks).rh.notes
        = sortNotes (((c3cexComp.tracks.flatMap (fun t => t.notes)).map normalizeNote).filter
            (fun n => ¬ n.pitch < PITCH_SPLIT)) := rfl
    rw [hrh, show c3cexComp.tracks.flatMap (fun t => t.notes) = c3cexNotes from rfl, hmapn]
    decide
  · decide

theorem c3cex_abc_map :
    Abc.buildTimeMap c3cexNotes = ⟨[(0, [⟨72, 0, 8⟩]), (4, [⟨76, 4, 4⟩])], [0, 4]⟩ := by
  have hbt : (Abc.buildTimeMap c3cexNotes).byTime = [(0, [⟨72, 0, 8⟩]), (4, [⟨76, 4, 4⟩])] := by
    rw [Abc.buildTimeMap, mapOfNotes_byTime]
    simp only [c3cexNotes, List.foldl_cons, List.foldl_nil, mapStep,
      abc_toTicksTime_zero, abc_toTicksTime_one, abc_toTicksDuration_one, abc_toTicksDuration_two]
    rfl
  have hat : (Abc.buildTimeMap c3cexNotes).allTimes = [0, 4] := by
    rw [Abc.buildTimeMap, mapOfNotes_allTimes, ← Abc.buildTimeMap, hbt]
    rfl
  rw [show Abc.buildTimeMap c3cexNotes
      = TimeMap.mk (Abc.buildTimeMap c3cexNotes).byTime (Abc.buildTimeMap c3cexNotes).allTimes from rfl,
    hbt, hat]

theorem c3cex_xml_map :
    Xml.buildMeasureMap c3cexNotes = ⟨[(0, [⟨72, 0, 16⟩]), (8, [⟨76, 8, 8⟩])], [0, 8]⟩ := by
  have hbt : (Xml.buildMeasureMap c3cexNotes).byTime = [(0, [⟨72, 0, 16⟩]), (8, [⟨76, 8, 8⟩])] := by
    rw [Xml.buildMeasureMap, mapOfNotes_byTime]
    simp only [c3cexNotes, List.foldl_cons, List.foldl_nil, mapStep,
      xml_toTicks_zero, xml_toTicks_one, xml_toTicks_two]
    rfl
  have hat : (Xml.buildMeasureMap c3cexNotes).allTimes = [0, 8] := by
    rw [Xml.buildMeasureMap, mapOfNotes_allTimes, ← Xml.buildMeasureMap, hbt]
    rfl
  rw [show Xml.buildMeasureMap c3cexNotes
      = TimeMap.mk (Xml.buildMeasureMap c3cexNotes).byTime (Xml.buildMeasureMap c3cexNotes).allTimes from rfl,
    hbt, hat]

/-- C3 counterexample: the note `(pitch 76, time 1, duration 1)` is in the
upper-voice input of both encoders, whose other note `(72, 0, 2)` spans its
onset, and no token of any measure of either encoder carries pitch 76 — the
note is silently dropped. -/
theorem c3_mid_onset_dropped_cex :
    ((76 : ℤ) ∈ ((Abc.voices c3cexComp).1.map Note.pitch) ∧
     (76 : ℤ) ∈ ((Xml.splitToGrandStaff c3cexComp.tracks).1.map Note.pitch)) ∧
    (∀ m : ℤ, ∀ tok ∈ Abc.measureTokens (Abc.buildTimeMap (Abc.voices c3cexComp).1) m,
        (76 : ℤ) ∉ tok.pitches) ∧
    (∀ m : ℤ, ∀ tok ∈ Xml.measureTokens (Xml.buildMeasureMap (Xml.splitToGrandStaff c3cexComp.tracks).1) m,
        (76 : ℤ) ∉ tok.pitches) := by
  obtain ⟨hva, hvx⟩ := c3cex_voice
  refine ⟨⟨by rw [hva]; decide, by rw [hvx]; decide⟩, ?_, ?_⟩
  · intro m tok htok
    rw [hva, c3cex_abc_map] at htok
    by_cases hm : m = 0
    · subst hm
      have he : Abc.measureTokens (⟨[(0, [⟨72, 0, 8⟩]), (4, [⟨76, 4, 4⟩])], [0, 4]⟩ : TimeMap) 0
          = [Token.chordTok 0 [72] 8, Token.restTok 8 8] := by decide
      rw [he] at htok
      rcases List.mem_cons.mp htok with h | h
      · subst h; decide
      · rw [List.mem_singleton.mp h]; decide
    · have hmt : Abc.measureTokens (⟨[(0, [⟨72, 0, 8⟩]), (4, [⟨76, 4, 4⟩])], [0, 4]⟩ : TimeMap) m
          = [Token.restTok (m * Abc.ticksPerMeasure)
              ((m + 1) * Abc.ticksPerMeasure - m * Abc.ticksPerMeasure)] := by
        show fillMeasureGo [(0, [⟨72, 0, 8⟩]), (4, [⟨76, 4, 4⟩])] [0, 4]
            ((m + 1) * Abc.ticksPerMeasure) Abc.ticksPerMeasure.toNat (m * Abc.ticksPerMeasure) = _
        rw [show Abc.ticksPerMeasure.toNat = 15 + 1 from rfl]
        apply fillMeasureGo_empty_measure
        · intro t ht
          rcases List.mem_cons.mp ht with h | h
          · subst h
            rw [Abc.ticksPerMeasure]
            rintro ⟨hl, hr⟩
            omega
          · rw [List.mem_singleton.mp h]
            rw [Abc.ticksPerMeasure]
            rintro ⟨hl, hr⟩
            omega
        · apply mapGet_eq_nil_of_not_mem
          simp only [List.map_cons, List.map_nil, List.mem_cons, List.mem_singleton]
          rw [Abc.ticksPerMeasure]
          rintro (h | h | h)
          · omega
          · omega
          · simp at h
        · rw [Abc.ticksPerMeasure]; omega
      rw [hmt] at htok
      rw [List.mem_singleton.mp htok]
      simp [Token.pitches]
  · intro m tok htok
    rw [hvx, c3cex_xml_map] at htok
    by_cases hm : m = 0
    · subst hm
      have he : Xml.measureTokens (⟨[(0, [⟨72, 0, 16⟩]), (8, [⟨76, 8, 8⟩])], [0, 8]⟩ : TimeMap) 0
          = [Token.chordTok 0 [72] 16, Token.restTok 16 16] := by decide
      rw [he] at htok
      rcases List.mem_cons.mp htok with h | h
      · subst h; decide
      · rw [List.mem_singleton.mp h]; decide
    · have hD : ∀ k, ∀ tn ∈ mapGet ((⟨[(0, [⟨72, 0, 16⟩]), (8, [⟨76, 8, 8⟩])], [0, 8]⟩ : TimeMap)).byTime k,
          1 ≤ tn.durationTicks := by
        have h := xml_map_dur_pos c3cexNotes
        rw [c3cex_xml_map] at h
        exact h
      have hmt : Xml.measureTokens (⟨[(0, [⟨72, 0, 16⟩]), (8, [⟨76, 8, 8⟩])], [0, 8]⟩ : TimeMap) m
          = [Token.restTok (m * Xml.TICKS_PER_MEASURE)
              ((m + 1) * Xml.TICKS_PER_MEASURE - m * Xml.TICKS_PER_MEASURE)] := by
        rw [xml_measureTokens_eq _ hD m]
        rw [show Xml.TICKS_PER_MEASURE.toNat = 31 + 1 from rfl]
        apply fillMeasureGo_empty_measure
        · intro t ht
          rcases List.mem_cons.mp ht with h | h
          · subst h
            rw [Xml.TICKS_PER_MEASURE]
            rintro ⟨hl, hr⟩
            omega
          · rw [List.mem_singleton.mp h]
            rw [Xml.TICKS_PER_MEASURE]
            rintro ⟨hl, hr⟩
            omega
        · apply mapGet_eq_nil_of_not_mem
          simp only [List.map_cons, List.map_nil, List.mem_cons, List.mem_singleton]
          rw [Xml.TICKS_PER_MEASURE]
          rintro (h | h | h)
          · omega
          · omega
          · simp at h
        · rw [Xml.TICKS_PER_MEASURE]; omega
      rw [hmt] at htok
      rw [List.mem_singleton.mp htok]
      simp [Token.pitches]

/-! ## Claim C1: cross-encoder agreement

The two encoders consume the same notes through slightly different pipelines
(the ABC side normalizes; the XML side does not) and with tick bases 4 and 8
per beat.  Everything the walks consume is determined by the projection
`(time, duration, pitch)` of each note, and for already-normalized input the
XML map is the ABC map with every tick doubled. -/

/-- The fields of a note the encoders' timing pipeline reads. -/
def proj (n : Note) : ℚ × ℚ × ℤ := (n.time, n.duration, n.pitch)

theorem proj_time {a b : Note} (h : proj a = proj b) : a.time = b.time := by
  have := congrArg Prod.fst h
  simpa [proj] using this

theorem proj_duration {a b : Note} (h : proj a = proj b) : a.duration = b.duration := by
  have := congrArg (fun p => p.2.1) h
  simpa [proj] using this

theorem proj_pitch {a b : Note} (h : proj a = proj b) : a.pitch = b.pitch := by
  have := congrArg (fun p => p.2.2) h
  simpa [proj] using this

theorem noteLe_proj {a a' b b' : Note} (ha : proj a = proj a') (hb : proj b = proj b') :
    noteLe a b ↔ noteLe a' b' := by
  rw [noteLe, noteLe, proj_time ha, proj_time hb, proj_pitch ha, proj_pitch hb]

/-- A pitch-only filter applied to projection-equal lists keeps
projection-equal lists. -/
theorem filter_proj (q : Note → Bool) (hq : ∀ a b, proj a = proj b → q a = q b) :
    ∀ {l1 l2 : List Note}, l1.map proj = l2.map proj →
      (l1.filter q).map proj = (l2.filter q).map proj := by
  intro l1
  induction l1 with
  | nil =>
      intro l2 h
      rw [List.map_nil] at h
      rw [List.map_eq_nil_iff.mp h.symm]
  | cons a l1 ih =>
      intro l2 h
      cases l2 with
      | nil => simp at h
      | cons b l2 =>
          simp only [List.map_cons, List.cons.injEq] at h
          obtain ⟨hab, hrest⟩ := h
          by_cases hqa : q a = true
          · rw [List.filter_cons_of_pos hqa,
              List.filter_cons_of_pos (by rw [← hq a b hab]; exact hqa)]
            simp only [List.map_cons, List.cons.injEq]
            exact ⟨hab, ih hrest⟩
          · rw [List.filter_cons_of_neg hqa,
              List.filter_cons_of_neg (by rw [← hq a b hab]; exact hqa)]
            exact ih hrest

theorem orderedInsert_proj :
    ∀ {l1 l2 : List Note} {a b : Note}, proj a = proj b → l1.map proj = l2.map proj →
      (l1.orderedInsert noteLe a).map proj = (l2.orderedInsert noteLe b).map proj := by
  intro l1
  induction l1 with
  | nil =>
      intro l2 a b hab h
      rw [List.map_nil] at h
      rw [List.map_eq_nil_iff.mp h.symm]
      simp only [List.orderedInsert, List.map_cons, List.map_nil]
      rw [hab]
  | cons x l1 ih =>
      intro l2 a b hab h
      cases l2 with
      | nil => simp at h
      | cons y l2 =>
          simp only [List.map_cons, List.cons.injEq] at h
          obtain ⟨hxy, hrest⟩ := h
          simp only [List.orderedInsert]
          by_cases hr : noteLe a x
          · rw [if_pos hr, if_pos ((noteLe_proj hab hxy).mp hr)]
            simp only [List.map_cons, List.cons.injEq]
            exact ⟨hab, hxy, hrest⟩
          · rw [if_neg hr, if_neg (fun hc => hr ((noteLe_proj hab hxy).mpr hc))]
            simp only [List.map_cons, List.cons.injEq]
            exact ⟨hxy, ih hab hrest⟩

theorem insertionSort_proj :
    ∀ {l1 l2 : List Note}, l1.map proj = l2.map proj →
      (l1.insertionSort noteLe).map proj = (l2.insertionSort noteLe).map proj := by
  intro l1
  induction l1 with
  | nil =>
      intro l2 h
      rw [List.map_nil] at h
      rw [List.map_eq_nil_iff.mp h.symm]
  | cons a l1 ih =>
      intro l2 h
      cases l2 with
      | nil => simp at h
      | cons b l2 =>
          simp only [List.map_cons, List.cons.injEq] at h
          obtain ⟨hab, hrest⟩ := h
          simp only [List.insertionSort]
          exact orderedInsert_proj hab (ih hrest)

/-- `mapOfNotes` reads only the projection of each note. -/
theorem mapOfNotes_proj (toTime toDur : ℚ → ℤ) :
    ∀ {l1 l2 : List Note}, l1.map proj = l2.map proj →
      mapOfNotes toTime toDur l1 = mapOfNotes toTime toDur l2 := by
  have hfold : ∀ (l1 : List Note) (l2 : List Note) (acc : List (ℤ × List TickNote)),
      l1.map proj = l2.map proj →
      l1.foldl (mapStep toTime toDur) acc = l2.foldl (mapStep toTime toDur) acc := by
    intro l1
    induction l1 with
    | nil =>
        intro l2 acc h
        rw [List.map_nil] at h
        rw [List.map_eq_nil_iff.mp h.symm]
    | cons a l1 ih =>
        intro l2 acc h
        cases l2 with
        | nil => simp at h
        | cons b l2 =>
            simp only [List.map_cons, List.cons.injEq] at h
            obtain ⟨hab, hrest⟩ := h
            rw [List.foldl_cons, List.foldl_cons,
              show mapStep toTime toDur acc a = mapStep toTime toDur acc b from by
                rw [mapStep, mapStep, proj_time hab, proj_duration hab, proj_pitch hab]]
            exact ih l2 _ hrest
  intro l1 l2 h
  have hb := hfold l1 l2 [] h
  have h1 : (mapOfNotes toTime toDur l1).byTime = (mapOfNotes toTime toDur l2).byTime := by
    rw [mapOfNotes_byTime, mapOfNotes_byTime, hb]
  have h2 : (mapOfNotes toTime toDur l1).allTimes = (mapOfNotes toTime toDur l2).allTimes := by
    rw [mapOfNotes_allTimes, mapOfNotes_allTimes, h1]
  rw [show mapOfNotes toTime toDur l1 = TimeMap.mk (mapOfNotes toTime toDur l1).byTime
        (mapOfNotes toTime toDur l1).allTimes from rfl,
    show mapOfNotes toTime toDur l2 = TimeMap.mk (mapOfNotes toTime toDur l2).byTime
        (mapOfNotes toTime toDur l2).allTimes from rfl,
    h1, h2]

/-! ### Tick doubling -/

def scaleTick (tn : TickNote) : TickNote :=
  ⟨tn.pitch, 2 * tn.timeTicks, 2 * tn.durationTicks⟩

def scaleMap (m : List (ℤ × List TickNote)) : List (ℤ × List TickNote) :=
  m.map (fun kg => (2 * kg.1, kg.2.map scaleTick))

def scaleTok : Token → Token
  | .chordTok s ps d => .chordTok (2 * s) ps (2 * d)
  | .restTok s d => .restTok (2 * s) (2 * d)

def scaleTimeMap (tm : TimeMap) : TimeMap :=
  ⟨scaleMap tm.byTime, tm.allTimes.map (fun t => 2 * t)⟩

theorem mapGet_scaleMap (m : List (ℤ × List TickNote)) (k : ℤ) :
    mapGet (scaleMap m) (2 * k) = (mapGet m k).map scaleTick := by
  induction m with
  | nil => rfl
  | cons kg rest ih =>
      obtain ⟨k1, v1⟩ := kg
      by_cases h : k = k1
      · subst h
        simp [scaleMap, mapGet, List.lookup]
      · have h2 : (2 * k == 2 * k1) = false := by
          simp only [beq_eq_false_iff_ne, ne_eq]
          omega
        have h1 : (k == k1) = false := by simp [h]
        simp only [scaleMap, List.map_cons, mapGet, List.lookup, h1, h2]
        exact ih

theorem mapSet_scaleMap (m : List (ℤ × List TickNote)) (k : ℤ) (v : List TickNote) :
    mapSet (scaleMap m) (2 * k) (v.map scaleTick) = scaleMap (mapSet m k v) := by
  induction m with
  | nil => rfl
  | cons kg rest ih =>
      obtain ⟨k1, v1⟩ := kg
      by_cases h : k1 = k
      · subst h
        show mapSet ((2 * k1, v1.map scaleTick) :: scaleMap rest) (2 * k1) (v.map scaleTick)
            = scaleMap (mapSet ((k1, v1) :: rest) k1 v)
        rw [show mapSet ((k1, v1) :: rest) k1 v = (k1, v) :: rest from by
          rw [mapSet, if_pos rfl]]
        rw [show mapSet ((2 * k1, v1.map scaleTick) :: scaleMap rest) (2 * k1) (v.map scaleTick)
            = (2 * k1, v.map scaleTick) :: scaleMap rest from by
          rw [mapSet, if_pos rfl]]
        rfl
      · have h2 : ¬ (2 * k1 = 2 * k) := by omega
        show mapSet ((2 * k1, v1.map scaleTick) :: scaleMap rest) (2 * k) (v.map scaleTick)
            = scaleMap (mapSet ((k1, v1) :: rest) k v)
        rw [show mapSet ((k1, v1) :: rest) k v = (k1, v1) :: mapSet rest k v from by
          rw [mapSet, if_neg h]]
        rw [show mapSet ((2 * k1, v1.map scaleTick) :: scaleMap rest) (2 * k) (v.map scaleTick)
            = (2 * k1, v1.map scaleTick) :: mapSet (scaleMap rest) (2 * k) (v.map scaleTick) from by
          rw [mapSet, if_neg h2]]
        rw [ih]
        rfl

/-! ### Tick conversions on normalized notes -/

theorem abc_ticksTime_norm {k : ℤ} (hk : 0 ≤ k) :
    Abc.toTicksTime ((k : ℚ) * TIME_GRID) = k := by
  rw [Abc.toTicksTime]
  have h : ((k : ℚ) * TIME_GRID) / TIME_GRID = (k : ℚ) := by
    rw [mul_div_assoc, div_self (by norm_num [TIME_GRID]), mul_one]
  rw [h, jsRound_intCast, max_eq_right hk]

theorem abc_ticksDuration_norm {m : ℤ} (hm : 1 ≤ m) :
    Abc.toTicksDuration ((m : ℚ) * TIME_GRID) = m := by
  rw [Abc.toTicksDuration]
  have h : ((m : ℚ) * TIME_GRID) / TIME_GRID = (m : ℚ) := by
    rw [mul_div_assoc, div_self (by norm_num [TIME_GRID]), mul_one]
  rw [h, jsRound_intCast, max_eq_right hm]

theorem xml_ticks_norm (k : ℤ) :
    Xml.toTicks ((k : ℚ) * TIME_GRID) = max 0 (2 * k) := by
  rw [Xml.toTicks]
  have h : ((k : ℚ) * TIME_GRID) * (Xml.DIVISIONS : ℚ) = ((2 * k : ℤ) : ℚ) := by
    rw [TIME_GRID, Xml.DIVISIONS]
    push_cast
    ring
  rw [h, jsRound_intCast]

theorem xml_time_scale (n : Note) (hN : NormalizedNote n) :
    Xml.toTicks n.time = 2 * Abc.toTicksTime n.time := by
  obtain ⟨⟨k, hk, ht⟩, _⟩ := hN
  rw [ht, abc_ticksTime_norm hk, xml_ticks_norm, max_eq_right (by omega)]

theorem xml_dur_scale (n : Note) (hN : NormalizedNote n) :
    max 1 (Xml.toTicks n.duration) = 2 * Abc.toTicksDuration n.duration := by
  obtain ⟨_, ⟨m, hm, hd⟩⟩ := hN
  rw [hd, abc_ticksDuration_norm hm, xml_ticks_norm, max_eq_right (by omega),
    max_eq_right (by omega)]

/-! ### The XML map of normalized notes is the doubled ABC map -/

theorem orderedInsert_map_mono (f : ℤ → ℤ) (hf : ∀ a b, f a ≤ f b ↔ a ≤ b) :
    ∀ (l : List ℤ) (a : ℤ),
      (l.map f).orderedInsert (· ≤ ·) (f a) = (l.orderedInsert (· ≤ ·) a).map f := by
  intro l
  induction l with
  | nil => intro a; rfl
  | cons x xs ih =>
      intro a
      simp only [List.map_cons, List.orderedInsert]
      by_cases h : a ≤ x
      · rw [if_pos ((hf a x).mpr h), if_pos h]
        rfl
      · rw [if_neg (fun hc => h ((hf a x).mp hc)), if_neg h, ih a]
        rfl

theorem insertionSort_map_mono (f : ℤ → ℤ) (hf : ∀ a b, f a ≤ f b ↔ a ≤ b) :
    ∀ (l : List ℤ),
      (l.map f).insertionSort (· ≤ ·) = (l.insertionSort (· ≤ ·)).map f := by
  intro l
  induction l with
  | nil => rfl
  | cons x xs ih =>
      simp only [List.map_cons, List.insertionSort]
      rw [ih, orderedInsert_map_mono f hf]

theorem scaleMap_keys (m : List (ℤ × List TickNote)) :
    (scaleMap m).map Prod.fst = (m.map Prod.fst).map (fun t => 2 * t) := by
  simp [scaleMap, List.map_map]

theorem buildScaled (notes : List Note) (hN : ∀ n ∈ notes, NormalizedNote n) :
    Xml.buildMeasureMap notes = scaleTimeMap (Abc.buildTimeMap notes) := by
  have hfold : ∀ (l : List Note) (acc : List (ℤ × List TickNote)),
      (∀ n ∈ l, NormalizedNote n) →
      l.foldl (mapStep Xml.toTicks (fun d => max 1 (Xml.toTicks d))) (scaleMap acc)
        = scaleMap (l.foldl (mapStep Abc.toTicksTime Abc.toTicksDuration) acc) := by
    intro l
    induction l with
    | nil => intro acc _; rfl
    | cons n ns ih =>
        intro acc hNl
        have hn := hNl n (List.mem_cons_self n ns)
        have hstep : mapStep Xml.toTicks (fun d => max 1 (Xml.toTicks d)) (scaleMap acc) n
            = scaleMap (mapStep Abc.toTicksTime Abc.toTicksDuration acc n) := by
          rw [mapStep, mapStep, xml_time_scale n hn, mapGet_scaleMap]
          have hdur : (⟨n.pitch, 2 * Abc.toTicksTime n.time, max 1 (Xml.toTicks n.duration)⟩ : TickNote)
              = scaleTick ⟨n.pitch, Abc.toTicksTime n.time, Abc.toTicksDuration n.duration⟩ := by
            rw [xml_dur_scale n hn]
            rfl
          rw [hdur]
          rw [show [scaleTick ⟨n.pitch, Abc.toTicksTime n.time, Abc.toTicksDuration n.duration⟩]
              = [(⟨n.pitch, Abc.toTicksTime n.time, Abc.toTicksDuration n.duration⟩ : TickNote)].map scaleTick
            from rfl]
          rw [← List.map_append]
          exact mapSet_scaleMap _ _ _
        rw [List.foldl_cons, List.foldl_cons, hstep]
        exact ih _ (fun x hx => hNl x (List.mem_cons_of_mem n hx))
  have hb : (Xml.buildMeasureMap notes).byTime = scaleMap (Abc.buildTimeMap notes).byTime := by
    rw [Xml.buildMeasureMap, mapOfNotes_byTime, Abc.buildTimeMap, mapOfNotes_byTime]
    have h := hfold notes [] hN
    rw [show scaleMap [] = [] from rfl] at h
    exact h
  have ha : (Xml.buildMeasureMap notes).allTimes
      = (Abc.buildTimeMap notes).allTimes.map (fun t => 2 * t) := by
    rw [Xml.buildMeasureMap, mapOfNotes_allTimes, Abc.buildTimeMap, mapOfNotes_allTimes,
      ← Xml.buildMeasureMap, ← Abc.buildTimeMap, hb, scaleMap_keys,
      insertionSort_map_mono (fun t => 2 * t)
        (fun a b => by show 2 * a ≤ 2 * b ↔ a ≤ b; omega)]
  rw [show Xml.buildMeasureMap notes = TimeMap.mk (Xml.buildMeasureMap notes).byTime
      (Xml.buildMeasureMap notes).allTimes from rfl, hb, ha]
  rfl

/-! ### The walk commutes with tick doubling -/

theorem foldl_max_two_mul : ∀ (l : List ℤ) (acc : ℤ),
    (l.map (fun x => 2 * x)).foldl max (2 * acc) = 2 * l.foldl max acc := by
  intro l
  induction l with
  | nil => intro acc; rfl
  | cons y ys ih =>
      intro acc
      simp only [List.map_cons, List.foldl_cons]
      rw [show max (2 * acc) (2 * y) = 2 * max acc y from
        (mul_max_of_nonneg acc y (by norm_num : (0:ℤ) ≤ 2)).symm]
      exact ih (max acc y)

theorem maxOfList_two_mul (l : List ℤ) :
    maxOfList (l.map (fun x => 2 * x)) = 2 * maxOfList l := by
  cases l with
  | nil => rfl
  | cons x xs =>
      show (xs.map (fun x => 2 * x)).foldl max (2 * x) = 2 * xs.foldl max x
      exact foldl_max_two_mul xs x

theorem fillGo_scaled (byTime : List (ℤ × List TickNote)) (allTimes : List ℤ) (E : ℤ) :
    ∀ (fuel : ℕ) (cursor : ℤ),
      fillMeasureGo (scaleMap byTime) (allTimes.map (fun t => 2 * t)) (2 * E) fuel (2 * cursor)
        = (fillMeasureGo byTime allTimes E fuel cursor).map scaleTok := by
  intro fuel
  induction fuel with
  | zero => intro cursor; rfl
  | succ fuel ih =>
      intro cursor
      simp only [fillMeasureGo]
      by_cases hc : cursor < E
      · rw [if_pos (show 2 * cursor < 2 * E by omega), if_pos hc, mapGet_scaleMap]
        by_cases hg : mapGet byTime cursor ≠ []
        · rw [if_pos (by simpa [List.map_eq_nil_iff] using hg), if_pos hg]
          have hmax : maxOfList (((mapGet byTime cursor).map scaleTick).map TickNote.durationTicks)
              = 2 * maxOfList ((mapGet byTime cursor).map TickNote.durationTicks) := by
            rw [List.map_map, show TickNote.durationTicks ∘ scaleTick
                = (fun x => 2 * x) ∘ TickNote.durationTicks from rfl, ← List.map_map]
            exact maxOfList_two_mul _
          have hpitch : ((mapGet byTime cursor).map scaleTick).map TickNote.pitch
              = (mapGet byTime cursor).map TickNote.pitch := by
            rw [List.map_map]
            rfl
          rw [hmax, hpitch,
            show 2 * cursor + 2 * maxOfList ((mapGet byTime cursor).map TickNote.durationTicks)
              = 2 * (cursor + maxOfList ((mapGet byTime cursor).map TickNote.durationTicks)) from
              by ring, ih]
          rfl
        · rw [if_neg (by simpa [List.map_eq_nil_iff] using hg), if_neg hg]
          have hpred : ((fun t => decide (2 * cursor < t ∧ t < 2 * E)) ∘ (fun t : ℤ => 2 * t))
              = (fun u : ℤ => decide (cursor < u ∧ u < E)) := by
            funext u
            show decide (2 * cursor < 2 * u ∧ 2 * u < 2 * E) = decide (cursor < u ∧ u < E)
            apply decide_eq_decide.mpr
            omega
          have hfind : (allTimes.map (fun t => 2 * t)).find?
                (fun t => decide (2 * cursor < t ∧ t < 2 * E))
              = (allTimes.find? (fun t => decide (cursor < t ∧ t < E))).map (fun t => 2 * t) := by
            rw [List.find?_map, hpred]
          have hgd : ((allTimes.find? (fun t => decide (cursor < t ∧ t < E))).map
              (fun t => 2 * t)).getD (2 * E)
              = 2 * (allTimes.find? (fun t => decide (cursor < t ∧ t < E))).getD E := by
            cases allTimes.find? (fun t => decide (cursor < t ∧ t < E)) <;> rfl
          rw [hfind, hgd,
            show 2 * (allTimes.find? (fun t => decide (cursor < t ∧ t < E))).getD E - 2 * cursor
              = 2 * ((allTimes.find? (fun t => decide (cursor < t ∧ t < E))).getD E - cursor) from
              by ring,
            show 2 * cursor
                + 2 * ((allTimes.find? (fun t => decide (cursor < t ∧ t < E))).getD E - cursor)
              = 2 * (cursor
                + ((allTimes.find? (fun t => decide (cursor < t ∧ t < E))).getD E - cursor)) from
              by ring, ih]
          rfl
      · rw [if_neg (show ¬ 2 * cursor < 2 * E by omega), if_neg hc]
        rfl

/-! ### Rest coverage -/

/-- A rest token of the measure's walk covers tick position `t`. -/
def restCovers (toks : List Token) (t : ℤ) : Prop :=
  ∃ tok ∈ toks, tok.isRest = true ∧ tok.start ≤ t ∧ t < tok.start + tok.dur

theorem restCovers_scale (toks : List Token) (t : ℤ) :
    restCovers (toks.map scaleTok) (2 * t) ↔ restCovers toks t := by
  constructor
  · rintro ⟨tok, htok, hrest, h1, h2⟩
    obtain ⟨tok', htok', heq⟩ := List.mem_map.mp htok
    subst heq
    refine ⟨tok', htok', ?_⟩
    cases tok' with
    | chordTok s ps d => simp [scaleTok, Token.isRest] at hrest
    | restTok s d =>
        refine ⟨rfl, ?_, ?_⟩ <;> simp only [scaleTok, Token.start, Token.dur] at h1 h2 ⊢ <;> omega
  · rintro ⟨tok, htok, hrest, h1, h2⟩
    refine ⟨scaleTok tok, List.mem_map_of_mem _ htok, ?_⟩
    cases tok with
    | chordTok s ps d => simp [Token.isRest] at hrest
    | restTok s d =>
        refine ⟨rfl, ?_, ?_⟩ <;> simp only [scaleTok, Token.start, Token.dur] at h1 h2 ⊢ <;> omega

/-! ### The two encoders' voice lists carry the same projections -/

theorem noteLe_time {a b : Note} (h : noteLe a b) : Abc.timeLe a b := by
  rcases h with h | ⟨h, _⟩
  · exact le_of_lt h
  · exact le_of_eq h

theorem abc_voice1_eq (c : Composition) :
    (Abc.voices c).1 = (splitToGrandStaff c.tracks).rh.notes := by
  show ((splitToGrandStaff c.tracks).rh.notes).insertionSort Abc.timeLe = _
  apply List.Sorted.insertionSort_eq
  exact (sortNotes_sorted _).imp (fun h => noteLe_time h)

theorem abc_voice2_eq (c : Composition) :
    (Abc.voices c).2 = (splitToGrandStaff c.tracks).lh.notes := by
  show ((splitToGrandStaff c.tracks).lh.notes).insertionSort Abc.timeLe = _
  apply List.Sorted.insertionSort_eq
  exact (sortNotes_sorted _).imp (fun h => noteLe_time h)

/-- Normalization leaves its own output's grid facts intact. -/
theorem normalizeNote_normalized (n : Note) : NormalizedNote (normalizeNote n) := by
  constructor
  · rcases le_or_lt 0 (quantize n.time) with h | h
    · refine ⟨jsRound (n.time / TIME_GRID), ?_, ?_⟩
      · have h2 : (0 : ℚ) ≤ (jsRound (n.time / TIME_GRID) : ℚ) :=
          nonneg_of_mul_nonneg_left h (by norm_num [TIME_GRID])
        exact_mod_cast h2
      · show max 0 (quantize n.time) = _
        rw [max_eq_right h]
        rfl
    · refine ⟨0, le_refl 0, ?_⟩
      show max 0 (quantize n.time) = _
      rw [max_eq_left h.le]
      norm_num
  · rcases le_or_lt TIME_GRID (quantize n.duration) with h | h
    · refine ⟨jsRound (n.duration / TIME_GRID), ?_, ?_⟩
      · have h2 : (1 : ℚ) * TIME_GRID ≤ (jsRound (n.duration / TIME_GRID) : ℚ) * TIME_GRID := by
          rw [one_mul]; exact h
        have h3 := le_of_mul_le_mul_right h2 (by norm_num [TIME_GRID] : (0:ℚ) < TIME_GRID)
        exact_mod_cast h3
      · show max TIME_GRID (quantize n.duration) = _
        rw [max_eq_right h]
        rfl
    · refine ⟨1, le_refl 1, ?_⟩
      show max TIME_GRID (quantize n.duration) = _
      rw [max_eq_left h.le]
      norm_num

theorem split_rh_mem_normalized {tracks : List Track} {x : Note}
    (hx : x ∈ (splitToGrandStaff tracks).rh.notes) : NormalizedNote x := by
  have hx' := sortNotes_mem.mp hx
  rw [List.mem_filter] at hx'
  obtain ⟨y, _, hy⟩ := List.mem_map.mp hx'.1
  rw [← hy]
  exact normalizeNote_normalized y

theorem split_lh_mem_normalized {tracks : List Track} {x : Note}
    (hx : x ∈ (splitToGrandStaff tracks).lh.notes) : NormalizedNote x := by
  have hx' := sortNotes_mem.mp hx
  rw [List.mem_filter] at hx'
  obtain ⟨y, _, hy⟩ := List.mem_map.mp hx'.1
  rw [← hy]
  exact normalizeNote_normalized y

theorem normalizeNote_proj (n : Note) (hN : NormalizedNote n) :
    proj (normalizeNote n) = proj n := by
  obtain ⟨⟨k, hk, ht⟩, ⟨m, hm, hd⟩⟩ := hN
  have h1 : (normalizeNote n).time = n.time := by
    show max 0 (quantize n.time) = n.time
    rw [ht, quantize_int_mul, max_eq_right]
    exact mul_nonneg (by exact_mod_cast hk) (by norm_num [TIME_GRID])
  have h2 : (normalizeNote n).duration = n.duration := by
    show max TIME_GRID (quantize n.duration) = n.duration
    rw [hd, quantize_int_mul, max_eq_right]
    calc TIME_GRID = 1 * TIME_GRID := (one_mul _).symm
    _ ≤ (m : ℚ) * TIME_GRID :=
        mul_le_mul_of_nonneg_right (by exact_mod_cast hm) (by norm_num [TIME_GRID])
  rw [proj, proj, h1, h2]
  rfl

/-- A function of the projection maps projection-equal lists to equal lists. -/
theorem map_of_proj (g : Note → ℤ) (hg : ∀ a b, proj a = proj b → g a = g b) :
    ∀ {l1 l2 : List Note}, l1.map proj = l2.map proj → l1.map g = l2.map g := by
  intro l1
  induction l1 with
  | nil =>
      intro l2 h
      rw [List.map_nil] at h
      rw [List.map_eq_nil_iff.mp h.symm]
  | cons a l1 ih =>
      intro l2 h
      cases l2 with
      | nil => simp at h
      | cons b l2 =>
          simp only [List.map_cons, List.cons.injEq] at h ⊢
          exact ⟨hg a b h.1, ih h.2⟩

theorem voices_proj (c : Composition)
    (hN : ∀ tr ∈ c.tracks, ∀ n ∈ tr.notes, NormalizedNote n) :
    (Abc.voices c).1.map proj = (Xml.splitToGrandStaff c.tracks).1.map proj ∧
    (Abc.voices c).2.map proj = (Xml.splitToGrandStaff c.tracks).2.map proj := by
  have hall : ∀ n ∈ c.tracks.flatMap (fun t => t.notes), NormalizedNote n := by
    intro n hn
    obtain ⟨t, ht, hnt⟩ := List.mem_flatMap.mp hn
    exact hN t ht n hnt
  have hmapproj : ((c.tracks.flatMap (fun t => t.notes)).map normalizeNote).map proj
      = (c.tracks.flatMap (fun t => t.notes)).map proj := by
    rw [List.map_map]
    exact List.map_congr_left (fun a ha => normalizeNote_proj a (hall a ha))
  constructor
  · rw [abc_voice1_eq]
    show ((((c.tracks.flatMap (fun t => t.notes)).map normalizeNote).filter
        (fun n => ¬ n.pitch < PITCH_SPLIT)).insertionSort noteLe).map proj
      = (((c.tracks.flatMap (fun t => t.notes)).filter
        (fun n => ¬ n.pitch < PITCH_SPLIT)).insertionSort noteLe).map proj
    apply insertionSort_proj
    apply filter_proj _ (fun a b hab => by rw [show a.pitch = b.pitch from proj_pitch hab])
    exact hmapproj
  · rw [abc_voice2_eq]
    show ((((c.tracks.flatMap (fun t => t.notes)).map normalizeNote).filter
        (fun n => n.pitch < PITCH_SPLIT)).insertionSort noteLe).map proj
      = (((c.tracks.flatMap (fun t => t.notes)).filter
        (fun n => n.pitch < PITCH_SPLIT)).insertionSort noteLe).map proj
    apply insertionSort_proj
    apply filter_proj _ (fun a b hab => by rw [show a.pitch = b.pitch from proj_pitch hab])
    exact hmapproj

theorem xml_split_mem {tracks : List Track} {x : Note} :
    (x ∈ (Xml.splitToGrandStaff tracks).1 → x ∈ tracks.flatMap (fun t => t.notes)) ∧
    (x ∈ (Xml.splitToGrandStaff tracks).2 → x ∈ tracks.flatMap (fun t => t.notes)) := by
  constructor <;> intro hx
  · have := (List.mem_insertionSort noteLe).mp hx
    exact (List.mem_filter.mp this).1
  · have := (List.mem_insertionSort noteLe).mp hx
    exact (List.mem_filter.mp this).1

/-! ### Measure counts -/

theorem xml_dur_scale_plain (n : Note) (hN : NormalizedNote n) :
    Xml.toTicks n.duration = 2 * Abc.toTicksDuration n.duration := by
  obtain ⟨_, ⟨m, hm, hd⟩⟩ := hN
  rw [hd, abc_ticksDuration_norm hm, xml_ticks_norm, max_eq_right (by omega)]

theorem voiceVals_scale (aV xV : List Note) (hproj : aV.map proj = xV.map proj)
    (hnorm : ∀ n ∈ xV, NormalizedNote n) :
    xV.map (fun n => Xml.toTicks n.time + Xml.toTicks n.duration)
      = (aV.map (fun n => Abc.toTicksTime n.time + Abc.toTicksDuration n.duration)).map
          (fun x => 2 * x) := by
  have h1 : xV.map (fun n => Xml.toTicks n.time + Xml.toTicks n.duration)
      = xV.map (fun n => 2 * (Abc.toTicksTime n.time + Abc.toTicksDuration n.duration)) :=
    List.map_congr_left (fun n hn => by
      rw [xml_time_scale n (hnorm n hn), xml_dur_scale_plain n (hnorm n hn)]
      ring)
  have h2 : aV.map (fun n => 2 * (Abc.toTicksTime n.time + Abc.toTicksDuration n.duration))
      = xV.map (fun n => 2 * (Abc.toTicksTime n.time + Abc.toTicksDuration n.duration)) :=
    map_of_proj _ (fun a b hab => by
      rw [proj_time hab, proj_duration hab]) hproj
  rw [h1, ← h2, List.map_map]
  rfl

theorem map_proj_nil_iff {l1 l2 : List Note} (h : l1.map proj = l2.map proj) :
    l1 = [] ↔ l2 = [] := by
  constructor <;> intro he
  · subst he
    exact List.map_eq_nil_iff.mp h.symm
  · subst he
    exact List.map_eq_nil_iff.mp h

theorem two_mul_max (a b : ℤ) : max (2 * a) (2 * b) = 2 * max a b :=
  (mul_max_of_nonneg a b (by norm_num : (0:ℤ) ≤ 2)).symm

theorem maxTick_scale (aV1 aV2 xV1 xV2 : List Note)
    (h1 : aV1.map proj = xV1.map proj) (h2 : aV2.map proj = xV2.map proj)
    (hn1 : ∀ n ∈ xV1, NormalizedNote n) (hn2 : ∀ n ∈ xV2, NormalizedNote n) :
    Xml.maxTickOf xV1 xV2 = 2 * Abc.globalMaxTick aV1 aV2 := by
  rw [Xml.maxTickOf, Abc.globalMaxTick]
  have hA : (if xV1 ≠ [] then
        maxOfList (xV1.map fun n => Xml.toTicks n.time + Xml.toTicks n.duration) else 0)
      = 2 * (if aV1 ≠ [] then
        maxOfList (aV1.map fun n => Abc.toTicksTime n.time + Abc.toTicksDuration n.duration) else 0) := by
    by_cases he : aV1 = []
    · rw [if_neg (by simpa using (map_proj_nil_iff h1).mp he), if_neg (by simpa using he)]
      rfl
    · rw [if_pos (by simpa using fun hc => he ((map_proj_nil_iff h1).mpr hc)),
        if_pos (by simpa using he), voiceVals_scale aV1 xV1 h1 hn1, maxOfList_two_mul]
  have hB : (if xV2 ≠ [] then
        maxOfList (xV2.map fun n => Xml.toTicks n.time + Xml.toTicks n.duration) else 0)
      = 2 * (if aV2 ≠ [] then
        maxOfList (aV2.map fun n => Abc.toTicksTime n.time + Abc.toTicksDuration n.duration) else 0) := by
    by_cases he : aV2 = []
    · rw [if_neg (by simpa using (map_proj_nil_iff h2).mp he), if_neg (by simpa using he)]
      rfl
    · rw [if_pos (by simpa using fun hc => he ((map_proj_nil_iff h2).mpr hc)),
        if_pos (by simpa using he), voiceVals_scale aV2 xV2 h2 hn2, maxOfList_two_mul]
  rw [hA, hB, two_mul_max, show Xml.TICKS_PER_MEASURE = 2 * Abc.ticksPerMeasure from rfl,
    two_mul_max]

theorem totalMeasures_scale (aV1 aV2 xV1 xV2 : List Note)
    (hmax : Xml.maxTickOf xV1 xV2 = 2 * Abc.globalMaxTick aV1 aV2) :
    Xml.totalMeasuresOf xV1 xV2
        = max 1 (jsCeil ((Abc.globalMaxTick aV1 aV2 : ℚ) / (Abc.ticksPerMeasure : ℚ))) ∧
    Abc.totalMeasuresOf aV1 aV2
        = max 32 (jsCeil ((Abc.globalMaxTick aV1 aV2 : ℚ) / (Abc.ticksPerMeasure : ℚ))) := by
  constructor
  · rw [Xml.totalMeasuresOf, hmax]
    have harg : ((2 * Abc.globalMaxTick aV1 aV2 : ℤ) : ℚ) / ((Xml.TICKS_PER_MEASURE : ℤ) : ℚ)
        = ((Abc.globalMaxTick aV1 aV2 : ℤ) : ℚ) / ((Abc.ticksPerMeasure : ℤ) : ℚ) := by
      rw [show Xml.TICKS_PER_MEASURE = (32 : ℤ) from rfl,
        show Abc.ticksPerMeasure = (16 : ℤ) from rfl]
      push_cast
      ring
    rw [harg]
  · rfl

/-- One measure's XML tokens are the ABC tokens with start and length doubled. -/
theorem measureTokens_scale (notes : List Note) (hN : ∀ n ∈ notes, NormalizedNote n) (m : ℤ) :
    Xml.measureTokens (Xml.buildMeasureMap notes) m
      = (Abc.measureTokens (Abc.buildTimeMap notes) m).map scaleTok := by
  rw [xml_measureTokens_eq _ (xml_map_dur_pos notes) m, buildScaled notes hN]
  show fillMeasureGo (scaleMap (Abc.buildTimeMap notes).byTime)
      ((Abc.buildTimeMap notes).allTimes.map (fun t => 2 * t))
      ((m + 1) * Xml.TICKS_PER_MEASURE) Xml.TICKS_PER_MEASURE.toNat (m * Xml.TICKS_PER_MEASURE)
    = (Abc.measureTokens (Abc.buildTimeMap notes) m).map scaleTok
  rw [show (m + 1) * Xml.TICKS_PER_MEASURE = 2 * ((m + 1) * Abc.ticksPerMeasure) from by
      rw [show Xml.TICKS_PER_MEASURE = (32 : ℤ) from rfl,
        show Abc.ticksPerMeasure = (16 : ℤ) from rfl]
      ring,
    show m * Xml.TICKS_PER_MEASURE = 2 * (m * Abc.ticksPerMeasure) from by
      rw [show Xml.TICKS_PER_MEASURE = (32 : ℤ) from rfl,
        show Abc.ticksPerMeasure = (16 : ℤ) from rfl]
      ring]
  rw [fillGo_scaled]
  show (fillMeasureGo (Abc.buildTimeMap notes).byTime (Abc.buildTimeMap notes).allTimes
      ((m + 1) * Abc.ticksPerMeasure) Xml.TICKS_PER_MEASURE.toNat (m * Abc.ticksPerMeasure)).map
        scaleTok
    = (fillMeasureGo (Abc.buildTimeMap notes).byTime (Abc.buildTimeMap notes).allTimes
      ((m + 1) * Abc.ticksPerMeasure) Abc.ticksPerMeasure.toNat (m * Abc.ticksPerMeasure)).map
        scaleTok
  exact congrArg (List.map scaleTok)
    (fillMeasureGo_fuel _ _ _ (abc_map_dur_pos notes) _ _ _
      (by
        rw [show (m + 1) * Abc.ticksPerMeasure - m * Abc.ticksPerMeasure = Abc.ticksPerMeasure
          from by ring]
        decide)
      (by
        rw [show (m + 1) * Abc.ticksPerMeasure - m * Abc.ticksPerMeasure = Abc.ticksPerMeasure
          from by ring]))

/-- C1 (amended): for a composition whose notes are already on the grid, the
ABC measure count is the XML measure count pushed up to the ABC minimum of 32
(so the counts agree exactly when the XML count reaches 32, and the claimed
equality fails below that), and silence placement agrees: in every measure of
either voice, a rest covers ABC tick `t` iff a rest covers the corresponding
XML tick `2 * t`. -/
theorem c1_encoder_consistency (c : Composition)
    (hN : ∀ tr ∈ c.tracks, ∀ n ∈ tr.notes, NormalizedNote n) :
    Abc.totalMeasures c = max 32 (Xml.totalMeasures c) ∧
    ∀ m t : ℤ,
      (restCovers (Abc.measureTokens (Abc.buildTimeMap (Abc.voices c).1) m) t ↔
        restCovers (Xml.measureTokens (Xml.buildMeasureMap (Xml.splitToGrandStaff c.tracks).1) m)
          (2 * t)) ∧
      (restCovers (Abc.measureTokens (Abc.buildTimeMap (Abc.voices c).2) m) t ↔
        restCovers (Xml.measureTokens (Xml.buildMeasureMap (Xml.splitToGrandStaff c.tracks).2) m)
          (2 * t)) := by
  obtain ⟨hp1, hp2⟩ := voices_proj c hN
  have hxn1 : ∀ n ∈ (Xml.splitToGrandStaff c.tracks).1, NormalizedNote n := by
    intro n hn
    obtain ⟨t, ht, hnt⟩ := List.mem_flatMap.mp (xml_split_mem.1 hn)
    exact hN t ht n hnt
  have hxn2 : ∀ n ∈ (Xml.splitToGrandStaff c.tracks).2, NormalizedNote n := by
    intro n hn
    obtain ⟨t, ht, hnt⟩ := List.mem_flatMap.mp (xml_split_mem.2 hn)
    exact hN t ht n hnt
  have han1 : ∀ n ∈ (Abc.voices c).1, NormalizedNote n := by
    intro n hn
    rw [abc_voice1_eq] at hn
    exact split_rh_mem_normalized hn
  have han2 : ∀ n ∈ (Abc.voices c).2, NormalizedNote n := by
    intro n hn
    rw [abc_voice2_eq] at hn
    exact split_lh_mem_normalized hn
  constructor
  · have hxm := maxTick_scale (Abc.voices c).1 (Abc.voices c).2
      (Xml.splitToGrandStaff c.tracks).1 (Xml.splitToGrandStaff c.tracks).2 hp1 hp2 hxn1 hxn2
    obtain ⟨hX, hA⟩ := totalMeasures_scale _ _ _ _ hxm
    rw [Abc.totalMeasures, Xml.totalMeasures, hA, hX]
    conv_rhs => rw [← max_assoc]
    rw [max_eq_left (show (1 : ℤ) ≤ 32 by norm_num)]
  · intro m t
    have hswap1 : Xml.buildMeasureMap (Xml.splitToGrandStaff c.tracks).1
        = Xml.buildMeasureMap (Abc.voices c).1 :=
      mapOfNotes_proj _ _ hp1.symm
    have hswap2 : Xml.buildMeasureMap (Xml.splitToGrandStaff c.tracks).2
        = Xml.buildMeasureMap (Abc.voices c).2 :=
      mapOfNotes_proj _ _ hp2.symm
    constructor
    · rw [hswap1, measureTokens_scale _ han1 m]
      exact (restCovers_scale _ t).symm
    · rw [hswap2, measureTokens_scale _ han2 m]
      exact (restCovers_scale _ t).symm

/-! ### C1 counterexample and witness input: one whole note at the origin -/

def c1note : Note := { pitch := 60, time := 0, duration := 4, velocity := 1 }

def c1comp : Composition :=
  { title := "T", subtitle := none, composer := "C", style := "s", tempo := 100
    tracks := [{ instrument := "Piano", volume := 1, notes := [c1note] }]
    abcNotation := "" }

theorem abc_toTicksDuration_four : Abc.toTicksDuration 4 = 16 := by
  rw [Abc.toTicksDuration, jsRound, TIME_GRID]
  norm_num

theorem xml_toTicks_four : Xml.toTicks 4 = 32 := by
  rw [Xml.toTicks, jsRound, Xml.DIVISIONS]
  norm_num

theorem c1_voices :
    (Abc.voices c1comp).1 = [c1note] ∧ (Abc.voices c1comp).2 = [] ∧
    (Xml.splitToGrandStaff c1comp.tracks).1 = [c1note] ∧
    (Xml.splitToGrandStaff c1comp.tracks).2 = [] := by
  have h1 : normalizeNote c1note = c1note :=
    normalizeNote_fix _
      ⟨⟨0, le_refl 0, by norm_num [c1note, TIME_GRID]⟩,
       ⟨16, by norm_num, by norm_num [c1note, TIME_GRID]⟩⟩
      ⟨by norm_num [c1note], by norm_num [c1note]⟩
  have hmapn : ([c1note] : List Note).map normalizeNote = [c1note] := by
    simp only [List.map_cons, List.map_nil, h1]
  refine ⟨?_, ?_, ?_, ?_⟩
  · show ((splitToGrandStaff c1comp.tracks).rh.notes).insertionSort Abc.timeLe = [c1note]
    have hrh : (splitToGrandStaff c1comp.tracks).rh.notes
        = sortNotes (((c1comp.tracks.flatMap (fun t => t.notes)).map normalizeNote).filter
            (fun n => ¬ n.pitch < PITCH_SPLIT)) := rfl
    rw [hrh, show c1comp.tracks.flatMap (fun t => t.notes) = [c1note] from rfl, hmapn]
    decide
  · show ((splitToGrandStaff c1comp.tracks).lh.notes).insertionSort Abc.timeLe = []
    have hlh : (splitToGrandStaff c1comp.tracks).lh.notes
        = sortNotes (((c1comp.tracks.flatMap (fun t => t.notes)).map normalizeNote).filter
            (fun n => n.pitch < PITCH_SPLIT)) := rfl
    rw [hlh, show c1comp.tracks.flatMap (fun t => t.notes) = [c1note] from rfl, hmapn]
    decide
  · decide
  · decide

theorem c1cex_globalMaxTick : Abc.globalMaxTick [c1note] [] = 16 := by
  rw [Abc.globalMaxTick, if_pos (show ([c1note] : List Note) ≠ [] by simp),
    if_neg (show ¬ (([] : List Note) ≠ []) by simp)]
  simp only [List.map_cons, List.map_nil]
  rw [show c1note.time = (0 : ℚ) from rfl, show c1note.duration = (4 : ℚ) from rfl,
    abc_toTicksTime_zero, abc_toTicksDuration_four]
  decide

theorem c1cex_maxTick : Xml.maxTickOf [c1note] [] = 32 := by
  rw [Xml.maxTickOf, if_pos (show ([c1note] : List Note) ≠ [] by simp),
    if_neg (show ¬ (([] : List Note) ≠ []) by simp)]
  simp only [List.map_cons, List.map_nil]
  rw [show c1note.time = (0 : ℚ) from rfl, show c1note.duration = (4 : ℚ) from rfl,
    xml_toTicks_zero, xml_toTicks_four]
  decide

/-- C1 counterexample: on a composition holding a single whole note the ABC
encoder reports 32 measures (its floor) while the XML encoder reports 1, so
the claimed equality of total measure counts fails. -/
theorem c1_measure_count_cex :
    Abc.totalMeasures c1comp ≠ Xml.totalMeasures c1comp ∧
    Abc.totalMeasures c1comp = 32 ∧ Xml.totalMeasures c1comp = 1 := by
  obtain ⟨hv1, hv2, hx1, hx2⟩ := c1_voices
  have hA : Abc.totalMeasures c1comp = 32 := by
    rw [Abc.totalMeasures, hv1, hv2, Abc.totalMeasuresOf, c1cex_globalMaxTick]
    rw [show ((16 : ℤ) : ℚ) / ((Abc.ticksPerMeasure : ℤ) : ℚ) = 1 from by
      rw [show Abc.ticksPerMeasure = (16 : ℤ) from rfl]
      norm_num]
    rw [jsCeil, show ⌈(1 : ℚ)⌉ = (1 : ℤ) from by norm_num]
    decide
  have hX : Xml.totalMeasures c1comp = 1 := by
    rw [Xml.totalMeasures, hx1, hx2, Xml.totalMeasuresOf, c1cex_maxTick]
    rw [show ((32 : ℤ) : ℚ) / ((Xml.TICKS_PER_MEASURE : ℤ) : ℚ) = 1 from by
      rw [show Xml.TICKS_PER_MEASURE = (32 : ℤ) from rfl]
      norm_num]
    rw [jsCeil, show ⌈(1 : ℚ)⌉ = (1 : ℤ) from by norm_num]
    decide
  exact ⟨by rw [hA, hX]; decide, hA, hX⟩

/-- C1 witness: the amended consistency theorem applied to the concrete
one-note composition, whose single note sits on the quantization grid. -/
theorem c1_encoder_consistency_witness :
    Abc.totalMeasures c1comp = max 32 (Xml.totalMeasures c1comp) ∧
    ∀ m t : ℤ,
      (restCovers (Abc.measureTokens (Abc.buildTimeMap (Abc.voices c1comp).1) m) t ↔
        restCovers
          (Xml.measureTokens (Xml.buildMeasureMap (Xml.splitToGrandStaff c1comp.tracks).1) m)
          (2 * t)) ∧
      (restCovers (Abc.measureTokens (Abc.buildTimeMap (Abc.voices c1comp).2) m) t ↔
        restCovers
          (Xml.measureTokens (Xml.buildMeasureMap (Xml.splitToGrandStaff c1comp.tracks).2) m)
          (2 * t)) :=
  c1_encoder_consistency c1comp (by
    intro tr htr n hn
    rw [show c1comp.tracks = [⟨"Piano", 1, [c1note]⟩] from rfl, List.mem_singleton] at htr
    subst htr
    rw [show (⟨"Piano", 1, [c1note]⟩ : Track).notes = [c1note] from rfl,
      List.mem_singleton] at hn
    subst hn
    exact ⟨⟨0, le_refl 0, by norm_num [c1note, TIME_GRID]⟩,
      ⟨16, by norm_num, by norm_num [c1note, TIME_GRID]⟩⟩)

/-! ## Claim C8: the Document Assembler's cross-reference table -/

namespace Pdf

/-- The byte pattern `pat` occurs in `l` starting at position `pos`. -/
def BytesAt (l : List ℕ) (pos : ℕ) (pat : List ℕ) : Prop :=
  (l.drop pos).take pat.length = pat

/-- A pattern found at a position survives appending bytes at the end. -/
theorem bytesAt_append {l ext pat : List ℕ} {pos : ℕ} (h : BytesAt l pos pat) :
    BytesAt (l ++ ext) pos pat := by
  rw [BytesAt] at h ⊢
  have hlen : pat.length ≤ (l.drop pos).length := by
    have := congrArg List.length h
    rw [List.length_take] at this
    omega
  rw [List.drop_append_eq_append_drop, List.take_append_eq_append_take, h,
    show pat.length - (l.drop pos).length = 0 from by omega, List.take_zero, List.append_nil]

/-- Every recorded offset points at that object's `"id 0 obj"` marker. -/
def OffsetsOk (st : PdfState) : Prop :=
  ∀ p ∈ st.offsets, BytesAt st.chunks p.2 (objMarker p.1)

theorem offsetsOk_writeBytes {st : PdfState} (h : OffsetsOk st) (b : List ℕ) :
    OffsetsOk (writeBytes st b) :=
  fun p hp => bytesAt_append (h p hp)

theorem offsetsOk_writeAscii {st : PdfState} (h : OffsetsOk st) (s : String) :
    OffsetsOk (writeAscii st s) :=
  offsetsOk_writeBytes h _

theorem asciiOf_append (a b : String) : asciiOf (a ++ b) = asciiOf a ++ asciiOf b := by
  rw [asciiOf, asciiOf, asciiOf, String.data_append, List.map_append]

theorem offsetsOk_beginObject {st : PdfState} (h : OffsetsOk st) (id : ℕ) :
    OffsetsOk (beginObject st id) := by
  intro p hp
  have hp' : p ∈ st.offsets ++ [(id, st.chunks.length)] := hp
  show BytesAt (st.chunks ++ asciiOf (toString id ++ " 0 obj\n")) p.2 (objMarker p.1)
  rcases List.mem_append.mp hp' with hold | hnew
  · exact bytesAt_append (h p hold)
  · rw [List.mem_singleton] at hnew
    subst hnew
    show BytesAt (st.chunks ++ asciiOf (toString id ++ " 0 obj\n")) st.chunks.length
      (objMarker id)
    have hsplit : asciiOf (toString id ++ " 0 obj\n") = objMarker id ++ asciiOf "\n" := by
      rw [objMarker, asciiOf_append, asciiOf_append, List.append_assoc]
      congr 1
    rw [BytesAt, List.drop_left, hsplit, List.take_left]

theorem offsetsOk_writePage {st : PdfState} (h : OffsetsOk st) (p0 : ℕ) (ip : ℕ × PdfPage) :
    OffsetsOk (writePage p0 st ip) := by
  simp only [writePage, endObject]
  apply offsetsOk_writeAscii
  apply offsetsOk_writeAscii
  apply offsetsOk_writeBytes
  apply offsetsOk_writeAscii
  apply offsetsOk_beginObject
  apply offsetsOk_writeAscii
  apply offsetsOk_writeAscii
  apply offsetsOk_beginObject
  apply offsetsOk_writeAscii
  apply offsetsOk_writeAscii
  exact offsetsOk_beginObject h _

theorem offsetsOk_foldWritePage (p0 : ℕ) :
    ∀ (l : List (ℕ × PdfPage)) (st : PdfState), OffsetsOk st →
      OffsetsOk (l.foldl (writePage p0) st) := by
  intro l
  induction l with
  | nil => intro st h; exact h
  | cons ip rest ih =>
      intro st h
      rw [List.foldl_cons]
      exact ih _ (offsetsOk_writePage h p0 ip)

theorem offsetsOk_pdfBody (pages : List PdfPage) : OffsetsOk (pdfBody pages) := by
  simp only [pdfBody, endObject]
  apply offsetsOk_foldWritePage
  apply offsetsOk_writeAscii
  apply offsetsOk_writeAscii
  apply offsetsOk_beginObject
  apply offsetsOk_writeAscii
  apply offsetsOk_writeAscii
  apply offsetsOk_beginObject
  apply offsetsOk_writeAscii
  intro p hp
  exact absurd hp (List.not_mem_nil p)

/-! ### The recorded object ids -/

theorem writePage_offsets_keys (p0 : ℕ) (st : PdfState) (ip : ℕ × PdfPage) :
    (writePage p0 st ip).offsets.map Prod.fst
      = st.offsets.map Prod.fst ++ [p0 + ip.1 * 3, p0 + ip.1 * 3 + 1, p0 + ip.1 * 3 + 2] := by
  simp [writePage, beginObject, endObject, writeAscii, writeBytes]

theorem fold_writePage_keys (p0 : ℕ) :
    ∀ (l : List (ℕ × PdfPage)) (st : PdfState),
      ((l.foldl (writePage p0) st).offsets.map Prod.fst)
        = st.offsets.map Prod.fst
          ++ l.flatMap (fun ip => [p0 + ip.1 * 3, p0 + ip.1 * 3 + 1, p0 + ip.1 * 3 + 2]) := by
  intro l
  induction l with
  | nil => intro st; simp
  | cons ip rest ih =>
      intro st
      rw [List.foldl_cons, ih, writePage_offsets_keys, List.flatMap_cons]
      simp

theorem enumFrom_triples (p0 : ℕ) :
    ∀ (pages : List PdfPage) (i : ℕ),
      (List.enumFrom i pages).flatMap
          (fun ip => [p0 + ip.1 * 3, p0 + ip.1 * 3 + 1, p0 + ip.1 * 3 + 2])
        = List.range' (p0 + i * 3) (3 * pages.length) := by
  intro pages
  induction pages with
  | nil => intro i; rfl
  | cons p rest ih =>
      intro i
      rw [List.enumFrom_cons, List.flatMap_cons, ih (i + 1),
        show 3 * (p :: rest).length = 3 * rest.length + 1 + 1 + 1 from by
          rw [List.length_cons]; ring,
        List.range'_succ, List.range'_succ, List.range'_succ,
        show p0 + (i + 1) * 3 = p0 + i * 3 + 1 + 1 + 1 from by ring]
      rfl

/-- After the body is written the recorded ids are exactly `1 .. 2+3N`, in
ascending order. -/
theorem pdfBody_keys (pages : List PdfPage) :
    (pdfBody pages).offsets.map Prod.fst = List.range' 1 (2 + pages.length * 3) := by
  simp only [pdfBody]
  rw [fold_writePage_keys,
    show (List.enum pages) = List.enumFrom 0 pages from rfl, enumFrom_triples]
  rw [show (2 + pages.length * 3) = 3 * pages.length + 1 + 1 from by ring,
    List.range'_succ, List.range'_succ]
  rfl

/-! ### Looking the offsets back up -/

theorem pdf_lookup_mem :
    ∀ {l : List (ℕ × ℕ)} {k v : ℕ}, l.lookup k = some v → (k, v) ∈ l := by
  intro l
  induction l with
  | nil => intro k v h; simp [List.lookup] at h
  | cons kv rest ih =>
      intro k v h
      obtain ⟨a, b⟩ := kv
      by_cases hk : k = a
      · subst hk
        simp [List.lookup] at h
        subst h
        exact List.mem_cons_self _ _
      · have hne : (k == a) = false := by simp [hk]
        simp [List.lookup, hne] at h
        exact List.mem_cons_of_mem _ (ih h)

theorem pdf_mem_lookup :
    ∀ {l : List (ℕ × ℕ)} {k : ℕ}, k ∈ l.map Prod.fst → ∃ v, l.lookup k = some v := by
  intro l
  induction l with
  | nil => intro k h; simp at h
  | cons kv rest ih =>
      intro k h
      obtain ⟨a, b⟩ := kv
      by_cases hk : k = a
      · subst hk
        exact ⟨b, by simp [List.lookup]⟩
      · have hne : (k == a) = false := by simp [hk]
        rw [List.map_cons, List.mem_cons] at h
        rcases h with h | h
        · exact absurd h hk
        · obtain ⟨v, hv⟩ := ih h
          exact ⟨v, by simp [List.lookup, hne, hv]⟩

/-- One state extends another: same recorded offsets, chunks grown by a
suffix.  Every write after the body only extends the state this way. -/
def Extends (st' st : PdfState) : Prop :=
  (∃ r, st'.chunks = st.chunks ++ r) ∧ st'.offsets = st.offsets

theorem extends_trans {c b a : PdfState} (h1 : Extends c b) (h2 : Extends b a) :
    Extends c a := by
  obtain ⟨⟨r1, hr1⟩, ho1⟩ := h1
  obtain ⟨⟨r2, hr2⟩, ho2⟩ := h2
  exact ⟨⟨r2 ++ r1, by rw [hr1, hr2, List.append_assoc]⟩, ho1.trans ho2⟩

theorem extends_writeAscii (st : PdfState) (s : String) : Extends (writeAscii st s) st :=
  ⟨⟨asciiOf s, rfl⟩, rfl⟩

theorem extends_foldl_writeAscii (lines : List String) :
    ∀ st : PdfState, Extends (lines.foldl writeAscii st) st := by
  induction lines with
  | nil => intro st; exact ⟨⟨[], by simp⟩, rfl⟩
  | cons s rest ih =>
      intro st
      rw [List.foldl_cons]
      exact extends_trans (ih (writeAscii st s)) (extends_writeAscii st s)

theorem makePdfStream_ext (pages : List PdfPage) :
    Extends (makePdfStream pages) (pdfBody pages) := by
  show Extends (writeAscii ((xrefLines _ _).foldl writeAscii (writeAscii (pdfBody pages) _)) _)
    (pdfBody pages)
  exact extends_trans (extends_writeAscii _ _)
    (extends_trans (extends_foldl_writeAscii _ _) (extends_writeAscii _ _))

theorem padStart10_length (s : String) : (padStart10 s).length = max 10 s.length := by
  rw [padStart10, String.length_append]
  rw [show (String.mk (List.replicate (10 - s.length) (Char.ofNat 48))).length
      = 10 - s.length from List.length_replicate _ _]
  omega

end Pdf

/-- C8: the assembled PDF's cross-reference table has `2 + 3N + 1` entries —
the free object-zero entry then one per object id `1 .. 2+3N` with the ids
recorded in strictly ascending order with no gaps — each entry's offset field
is the decimal offset left-padded to width 10, and each recorded offset is the
exact byte position of that object's `"k 0 obj"` marker in the emitted
stream. -/
theorem c8_xref_integrity (pages : List Pdf.PdfPage) :
    (Pdf.xrefLines (Pdf.pdfBody pages).offsets (2 + pages.length * 3)).length
        = 2 + 3 * pages.length + 1 ∧
    (Pdf.pdfBody pages).offsets.map Prod.fst = List.range' 1 (2 + pages.length * 3) ∧
    List.Pairwise (· < ·) ((Pdf.pdfBody pages).offsets.map Prod.fst) ∧
    (∀ off : ℕ, (Pdf.padStart10 (toString off)).length = max 10 (toString off).length) ∧
    (∀ k, 1 ≤ k → k ≤ 2 + pages.length * 3 →
      Pdf.BytesAt (Pdf.makePdfStream pages).chunks
        (Pdf.lookupOffset (Pdf.makePdfStream pages).offsets k) (Pdf.objMarker k)) := by
  refine ⟨?_, Pdf.pdfBody_keys pages, ?_, fun off => Pdf.padStart10_length _, ?_⟩
  · rw [Pdf.xrefLines, List.length_cons, List.length_map, List.length_range']
    omega
  · rw [Pdf.pdfBody_keys pages]
    exact List.pairwise_lt_range' 1 (2 + pages.length * 3)
  · intro k hk1 hk2
    obtain ⟨⟨r, hr⟩, ho⟩ := Pdf.makePdfStream_ext pages
    have hkmem : k ∈ (Pdf.pdfBody pages).offsets.map Prod.fst := by
      rw [Pdf.pdfBody_keys pages, List.mem_range'_1]
      omega
    obtain ⟨v, hv⟩ := Pdf.pdf_mem_lookup hkmem
    have hmem := Pdf.pdf_lookup_mem hv
    have hok := Pdf.offsetsOk_pdfBody pages (k, v) hmem
    rw [ho, Pdf.lookupOffset, hv, Option.getD_some, hr]
    exact Pdf.bytesAt_append hok

end Sonata

